import Mathlib

/-!
Verification of the URL canonicalizer, bookmark deduplicator, metadata
extractor and search helpers of the bookmark-manager repository.

The TypeScript source relies on the WHATWG `URL` platform class.  That class
is embedded here by a parser `URL.parse` over an explicit `UrlObj` record.
The embedding is exact on its domain: `URL.parse` accepts only `http`/`https`
URLs built from conservative character sets (no percent-encoding, no ports,
no userinfo, no dot segments, query strings that are `name=value` lists over
form-urlencoded-safe characters), and on every accepted string its components
and serialization agree with the WHATWG algorithm.  Strings outside this
domain are rejected (`none`), which makes the modelled library functions fall
back to returning their input unchanged, exactly as the TypeScript `catch`
branches do on strings the platform parser rejects.
-/

namespace Collection

/-- JS whitespace characters relevant to `String.prototype.trim`
(ASCII whitespace plus NBSP and BOM; other exotic Unicode space separators
do not occur in the character sets of this development). -/
def isJsWs (c : Char) : Bool :=
  c = ' ' ∨ c = '\t' ∨ c = '\n' ∨ c = '\r' ∨ c = Char.ofNat 11 ∨
    c = Char.ofNat 12 ∨ c = Char.ofNat 0xA0 ∨ c = Char.ofNat 0xFEFF

/-- Remove leading and trailing JS whitespace from a character list. -/
def trimChars (cs : List Char) : List Char :=
  ((cs.dropWhile isJsWs).reverse.dropWhile isJsWs).reverse

/-- Model of `String.prototype.trim`. -/
def jsTrim (s : String) : String :=
  ⟨trimChars s.data⟩

/-- Model of `String.prototype.startsWith`. -/
def strStarts (s pat : String) : Bool :=
  pat.data.isPrefixOf s.data

/-- Split a character list at every occurrence of `sep` (the pieces do not
contain `sep`; n separators yield n+1 pieces). -/
def splitOn1 (sep : Char) : List Char → List (List Char)
  | [] => [[]]
  | c :: cs =>
    if c = sep then [] :: splitOn1 sep cs
    else
      match splitOn1 sep cs with
      | [] => [[c]]
      | p :: ps => (c :: p) :: ps

theorem splitOn1_ne_nil (sep : Char) (cs : List Char) : splitOn1 sep cs ≠ [] := by
  cases cs with
  | nil => simp [splitOn1]
  | cons c cs =>
    simp only [splitOn1]
    split
    · simp
    · cases h : splitOn1 sep cs <;> simp

theorem splitOn1_of_not_mem {sep : Char} {cs : List Char} (h : sep ∉ cs) :
    splitOn1 sep cs = [cs] := by
  induction cs with
  | nil => rfl
  | cons c cs ih =>
    simp only [List.mem_cons, not_or] at h
    have hcs : ¬ c = sep := fun hc => h.1 hc.symm
    simp only [splitOn1, if_neg hcs, ih h.2]

theorem splitOn1_append {sep : Char} {l1 l2 : List Char} (h : sep ∉ l1) :
    splitOn1 sep (l1 ++ sep :: l2) = l1 :: splitOn1 sep l2 := by
  induction l1 with
  | nil => simp [splitOn1]
  | cons c cs ih =>
    simp only [List.mem_cons, not_or] at h
    have hcs : ¬ c = sep := fun hc => h.1 hc.symm
    simp only [List.cons_append, splitOn1, if_neg hcs, List.append_eq, ih h.2]

/-- `takeWhile` runs over a fully-satisfying front segment. -/
theorem takeWhile_append_all {p : Char → Bool} {l1 l2 : List Char}
    (h : ∀ c ∈ l1, p c) :
    (l1 ++ l2).takeWhile p = l1 ++ l2.takeWhile p := by
  induction l1 with
  | nil => rfl
  | cons c cs ih =>
    have hc : p c := h c (by simp)
    simp only [List.cons_append, List.takeWhile_cons_of_pos hc]
    rw [ih (fun d hd => h d (by simp [hd]))]

/-- `dropWhile` skips a fully-satisfying front segment. -/
theorem dropWhile_append_all {p : Char → Bool} {l1 l2 : List Char}
    (h : ∀ c ∈ l1, p c) :
    (l1 ++ l2).dropWhile p = l2.dropWhile p := by
  induction l1 with
  | nil => rfl
  | cons c cs ih =>
    have hc : p c := h c (by simp)
    simp only [List.cons_append, List.dropWhile_cons_of_pos hc]
    exact ih (fun d hd => h d (by simp [hd]))

theorem takeWhile_all {p : Char → Bool} {l : List Char} (h : ∀ c ∈ l, p c) :
    l.takeWhile p = l := by
  have h2 := @takeWhile_append_all p l [] h
  simpa using h2

theorem dropWhile_all {p : Char → Bool} {l : List Char} (h : ∀ c ∈ l, p c) :
    l.dropWhile p = [] := by
  have h2 := @dropWhile_append_all p l [] h
  simpa using h2

/-! ## The WHATWG `URL` platform class, embedded on a conservative domain -/

/-- Characters accepted in a (already lowercased) hostname:
`a-z`, `0-9`, `.`, `-`. -/
def isHostChar (c : Char) : Bool :=
  (97 ≤ c.toNat ∧ c.toNat ≤ 122) ∨ (48 ≤ c.toNat ∧ c.toNat ≤ 57) ∨
    c = '.' ∨ c = '-'

/-- Characters accepted in a path (kept verbatim by the WHATWG serializer):
letters, digits, `/`, `-`, `.`, `_`, `~`. -/
def isPathChar (c : Char) : Bool :=
  (97 ≤ c.toNat ∧ c.toNat ≤ 122) ∨ (65 ≤ c.toNat ∧ c.toNat ≤ 90) ∨
    (48 ≤ c.toNat ∧ c.toNat ≤ 57) ∨ c = '/' ∨ c = '-' ∨ c = '.' ∨
    c = '_' ∨ c = '~'

/-- Characters kept verbatim by the form-urlencoded serializer used by
`URLSearchParams` (so that parsing and re-serializing a query is lossless):
letters, digits, `-`, `.`, `_`, `*`. -/
def isQChar (c : Char) : Bool :=
  (97 ≤ c.toNat ∧ c.toNat ≤ 122) ∨ (65 ≤ c.toNat ∧ c.toNat ≤ 90) ∨
    (48 ≤ c.toNat ∧ c.toNat ≤ 57) ∨ c = '-' ∨ c = '.' ∨ c = '_' ∨ c = '*'

/-- Characters kept verbatim in a fragment by the WHATWG serializer:
letters, digits, `-`, `.`, `_`, `~`. -/
def isFragChar (c : Char) : Bool :=
  (97 ≤ c.toNat ∧ c.toNat ≤ 122) ∨ (65 ≤ c.toNat ∧ c.toNat ≤ 90) ∨
    (48 ≤ c.toNat ∧ c.toNat ≤ 57) ∨ c = '-' ∨ c = '.' ∨ c = '_' ∨ c = '~'

/-- Two characters on which a Boolean character class disagrees are distinct. -/
theorem bool_ne_of {p : Char → Bool} {c d : Char} (h : p c = true)
    (hd : p d = false) : ¬ c = d := by
  intro he
  subst he
  rw [h] at hd
  exact absurd hd (by simp)

/-- `Char.toLower` fixes every hostname character (they are outside `A-Z`). -/
theorem toLower_of_host {c : Char} (h : isHostChar c = true) :
    c.toLower = c := by
  simp only [isHostChar, decide_eq_true_eq] at h
  unfold Char.toLower
  simp only []
  split
  · exfalso
    rename_i hcond
    rcases h with ⟨h1, h2⟩ | ⟨h1, h2⟩ | rfl | rfl
    · omega
    · omega
    · revert hcond ; decide
    · revert hcond ; decide
  · rfl

/-- A parsed URL: the components of a WHATWG `URL` object.  `query` is the
association list exposed through `searchParams`; `fragment = none` is a URL
without a `#` part. -/
structure UrlObj where
  scheme : String
  host : String
  path : String
  query : List (String × String)
  fragment : Option String
  deriving Repr, DecidableEq

/-- A path segment list: pieces of the path between `/` characters. -/
def pathSegs (cs : List Char) : List (List Char) :=
  splitOn1 '/' cs

/-- WHATWG path parsing removes `.` and `..` segments; the domain of the
embedding excludes paths containing them instead. -/
def noDotSegs (cs : List Char) : Bool :=
  (pathSegs cs).all fun s => ¬ s = ['.'] ∧ ¬ s = ['.', '.']

/-- Well-formedness: the invariant satisfied by every `URL.parse` result and
preserved by the operations the library performs on URL objects. -/
def pairOk (pr : String × String) : Bool :=
  ¬ pr.1.data = [] ∧ pr.1.data.all isQChar ∧ pr.2.data.all isQChar

def fragWf : Option String → Bool
  | none => true
  | some f => f.data.all isFragChar

def UrlObj.wf (u : UrlObj) : Bool :=
  (u.scheme = "http" ∨ u.scheme = "https") ∧
    (¬ u.host.data = [] ∧ u.host.data.all isHostChar) ∧
    (¬ u.path.data = [] ∧ u.path.data.head? = some '/' ∧
      u.path.data.all isPathChar ∧ noDotSegs u.path.data) ∧
    u.query.all pairOk ∧ fragWf u.fragment

/-- One `name=value` piece of a query string: the name is the part before the
first `=`, the value the part after it. -/
def parsePiece (cs : List Char) : Option (String × String) :=
  match cs.dropWhile (fun c => ¬ c = '=') with
  | '=' :: v =>
    if ¬ cs.takeWhile (fun c => ¬ c = '=') = [] ∧
        (cs.takeWhile (fun c => ¬ c = '=')).all isQChar ∧ v.all isQChar then
      some (⟨cs.takeWhile (fun c => ¬ c = '=')⟩, ⟨v⟩)
    else none
  | _ => none

def parsePiecesList : List (List Char) → Option (List (String × String))
  | [] => some []
  | p :: ps =>
    match parsePiece p, parsePiecesList ps with
    | some a, some rest => some (a :: rest)
    | _, _ => none

/-- Parse a query string (the part after `?`) as `searchParams` pairs. -/
def parseQuery (cs : List Char) : Option (List (String × String)) :=
  parsePiecesList (splitOn1 '&' cs)

/-- Strip a literal `http://` or `https://` scheme part. -/
def dropSchemeHttp : List Char → Option (String × List Char)
  | 'h' :: 't' :: 't' :: 'p' :: 's' :: ':' :: '/' :: '/' :: rest =>
    some ("https", rest)
  | 'h' :: 't' :: 't' :: 'p' :: ':' :: '/' :: '/' :: rest => some ("http", rest)
  | _ => none

def notHash (c : Char) : Bool := ¬ c = '#'

def notQm (c : Char) : Bool := ¬ c = '?'

def notSlash (c : Char) : Bool := ¬ c = '/'

/-- The domain validation step of parsing: keep a candidate URL object only
when it satisfies the well-formedness invariant. -/
def validated (u : UrlObj) : Option UrlObj :=
  if u.wf then some u else none

theorem validated_of_wf {u : UrlObj} (h : u.wf = true) :
    validated u = some u := by
  unfold validated
  rw [if_pos h]

theorem validated_some {u v : UrlObj} (h : validated u = some v) :
    v = u ∧ u.wf = true := by
  unfold validated at h
  split at h
  · rename_i hwf
    cases h
    exact ⟨rfl, hwf⟩
  · cases h

namespace URL

/-- The part of URL parsing after the scheme: authority (up to the first `/`,
`?` or `#`), path, query (after the first `?`) and fragment (after the first
`#`) of `rest`, with the domain validation expressed as the single
well-formedness check `UrlObj.wf` (on this call pattern the scheme and
path-shape conjuncts of `wf` hold by construction, so the check is exactly
the component validation). -/
def parseAfterScheme (scheme : String) (rest : List Char) : Option UrlObj :=
  let beforeHash := rest.takeWhile notHash
  let hashRest := rest.dropWhile notHash
  let beforeQ := beforeHash.takeWhile notQm
  let qRest := beforeHash.dropWhile notQm
  let auth := beforeQ.takeWhile notSlash
  let pathCs := beforeQ.dropWhile notSlash
  let host := auth.map Char.toLower
  let path : List Char := if pathCs = [] then ['/'] else pathCs
  let frag : Option String :=
    match hashRest with
    | [] => none
    | _ :: f => some ⟨f⟩
  let parsedQuery : Option (List (String × String)) :=
    match qRest with
    | [] => some []
    | _ :: qcs => parseQuery qcs
  match parsedQuery with
  | none => none
  | some pairs => validated ⟨scheme, ⟨host⟩, ⟨path⟩, pairs, frag⟩

/-- Embedding of `new URL(s)` (which throws on failure; `none` here).
Accepts the conservative domain described in the module docstring; on that
domain the components agree with the WHATWG parser: hostname is lowercased,
a missing path becomes `/`, the first `?` starts the query and the first `#`
starts the fragment. -/
def parse (s : String) : Option UrlObj :=
  match dropSchemeHttp s.data with
  | none => none
  | some (scheme, rest) => parseAfterScheme scheme rest

end URL

/-- Serialize query pairs the way `URLSearchParams` does on the domain. -/
def serializePairs : List (String × String) → List Char
  | [] => []
  | [(n, v)] => n.data ++ '=' :: v.data
  | (n, v) :: rest => n.data ++ '=' :: v.data ++ '&' :: serializePairs rest

/-- The `search` part of the serialization (`?`-prefixed, empty for no pairs),
as produced after any `searchParams` mutation. -/
def querySerChars (q : List (String × String)) : List Char :=
  match q with
  | [] => []
  | _ => '?' :: serializePairs q

def fragSerChars : Option String → List Char
  | none => []
  | some f => '#' :: f.data

def UrlObj.hrefChars (u : UrlObj) : List Char :=
  u.scheme.data ++ ':' :: '/' :: '/' ::
    (u.host.data ++ (u.path.data ++
      (querySerChars u.query ++ fragSerChars u.fragment)))

/-- Embedding of the WHATWG URL serializer (`url.href` / `url.toString()`). -/
def UrlObj.href (u : UrlObj) : String :=
  ⟨u.hrefChars⟩

/-! ### Round trip: parsing a serialized well-formed URL recovers it -/

theorem dropWhile_eq_self_of {p : Char → Bool} {l : List Char}
    (h : ∀ c ∈ l, p c = false) : l.dropWhile p = l := by
  cases l with
  | nil => rfl
  | cons c cs => exact List.dropWhile_cons_of_neg (by simp [h c (by simp)])

theorem trimChars_eq_self {cs : List Char} (h : ∀ c ∈ cs, isJsWs c = false) :
    trimChars cs = cs := by
  unfold trimChars
  rw [dropWhile_eq_self_of h, dropWhile_eq_self_of (fun c hc => h c (by
    simpa using hc)), List.reverse_reverse]

theorem jsTrim_eq_self {s : String} (h : ∀ c ∈ s.data, isJsWs c = false) :
    jsTrim s = s := by
  unfold jsTrim
  rw [trimChars_eq_self h]

/-- Characters of a serialized nonempty query: query characters or the two
separators. -/
def isQSerChar (c : Char) : Bool :=
  isQChar c ∨ c = '=' ∨ c = '&'

theorem serializePairs_chars {q : List (String × String)}
    (h : ∀ pr ∈ q, pairOk pr = true) :
    ∀ c ∈ serializePairs q, isQSerChar c = true := by
  induction q with
  | nil => intro c hc; simp [serializePairs] at hc
  | cons pr rest ih =>
    obtain ⟨n, v⟩ := pr
    have hpr := h (n, v) (by simp)
    simp only [pairOk, Bool.decide_and, Bool.and_eq_true, decide_eq_true_eq] at hpr
    obtain ⟨-, hn, hv⟩ := hpr
    intro c hc
    have hqc : ∀ d, isQChar d = true → isQSerChar d = true := by
      intro d hd; simp [isQSerChar, hd]
    cases rest with
    | nil =>
      have hser : serializePairs [(n, v)] = n.data ++ '=' :: v.data := rfl
      rw [hser] at hc
      simp only [List.mem_append, List.mem_cons] at hc
      rcases hc with hc | rfl | hc
      · exact hqc c (by simpa using (List.all_eq_true.mp hn) c hc)
      · simp [isQSerChar]
      · exact hqc c (by simpa using (List.all_eq_true.mp hv) c hc)
    | cons pr2 rest2 =>
      have hser : serializePairs ((n, v) :: pr2 :: rest2) =
          n.data ++ '=' :: v.data ++ '&' :: serializePairs (pr2 :: rest2) := rfl
      rw [hser] at hc
      simp only [List.mem_append, List.mem_cons] at hc
      rcases hc with (hc | rfl | hc) | rfl | hc
      · exact hqc c (by simpa using (List.all_eq_true.mp hn) c hc)
      · simp [isQSerChar]
      · exact hqc c (by simpa using (List.all_eq_true.mp hv) c hc)
      · simp [isQSerChar]
      · exact ih (fun x hx => h x (by simp [hx])) c hc

theorem parsePiece_serialized {n v : String}
    (h : pairOk (n, v) = true) :
    parsePiece (n.data ++ '=' :: v.data) = some (n, v) := by
  simp only [pairOk, Bool.decide_and, Bool.and_eq_true, decide_eq_true_eq] at h
  obtain ⟨hne, hn, hv⟩ := h
  have hnEq : ∀ c ∈ n.data, (fun c => decide (¬ c = '=')) c = true := by
    intro c hc
    have := (List.all_eq_true.mp hn) c hc
    simp only [decide_eq_true_eq]
    exact bool_ne_of (by simpa using this) (by decide)
  have ht : List.takeWhile (fun c => decide (¬ c = '=')) ('=' :: v.data) = [] := by
    simp
  have hd : List.dropWhile (fun c => decide (¬ c = '=')) ('=' :: v.data) =
      '=' :: v.data := by simp
  unfold parsePiece
  rw [dropWhile_append_all hnEq, hd]
  show (if ¬ ((n.data ++ '=' :: v.data).takeWhile fun c => ¬ c = '=') = [] ∧
        ((n.data ++ '=' :: v.data).takeWhile fun c => ¬ c = '=').all isQChar =
          true ∧ v.data.all isQChar = true
      then some ((⟨(n.data ++ '=' :: v.data).takeWhile fun c => ¬ c = '='⟩ :
        String), (⟨v.data⟩ : String)) else none) = some (n, v)
  rw [takeWhile_append_all hnEq, ht, List.append_nil]
  rw [if_pos ⟨hne, hn, hv⟩]

theorem parseQuery_serialized {q : List (String × String)} (hne : ¬ q = [])
    (h : ∀ pr ∈ q, pairOk pr = true) :
    parseQuery (serializePairs q) = some q := by
  induction q with
  | nil => exact absurd rfl hne
  | cons pr rest ih =>
    obtain ⟨n, v⟩ := pr
    have hpr := h (n, v) (by simp)
    have hnoAmp : '&' ∉ n.data ++ '=' :: v.data := by
      intro hmem
      simp only [pairOk, Bool.decide_and, Bool.and_eq_true, decide_eq_true_eq] at hpr
      obtain ⟨-, hn, hv⟩ := hpr
      simp only [List.mem_append, List.mem_cons] at hmem
      rcases hmem with hmem | hmem | hmem
      · exact bool_ne_of (by simpa using (List.all_eq_true.mp hn) _ hmem)
          (show isQChar '&' = false by decide) rfl
      · exact absurd hmem.symm (by decide)
      · exact bool_ne_of (by simpa using (List.all_eq_true.mp hv) _ hmem)
          (show isQChar '&' = false by decide) rfl
    cases rest with
    | nil =>
      unfold parseQuery
      have : serializePairs [(n, v)] = n.data ++ '=' :: v.data := rfl
      rw [this, splitOn1_of_not_mem hnoAmp]
      simp [parsePiecesList, parsePiece_serialized hpr]
    | cons pr2 rest2 =>
      unfold parseQuery
      have hser : serializePairs ((n, v) :: pr2 :: rest2) =
          (n.data ++ '=' :: v.data) ++ '&' :: serializePairs (pr2 :: rest2) := by
        simp [serializePairs]
      rw [hser, splitOn1_append hnoAmp]
      have ihr := ih (by simp) (fun x hx => h x (by simp [hx]))
      unfold parseQuery at ihr
      simp [parsePiecesList, parsePiece_serialized hpr, ihr]

theorem parseAfterScheme_serialized {scheme host path : String}
    {query : List (String × String)} {fragment : Option String}
    (hs : scheme = "http" ∨ scheme = "https")
    (hhne : ¬ host.data = []) (hhall : host.data.all isHostChar = true)
    (hpne : ¬ path.data = []) (hphead : path.data.head? = some '/')
    (hpall : path.data.all isPathChar = true)
    (hpdot : noDotSegs path.data = true)
    (hq : query.all pairOk = true) (hf : fragWf fragment = true) :
    URL.parseAfterScheme scheme
      (host.data ++ (path.data ++
        (querySerChars query ++ fragSerChars fragment))) =
      some ⟨scheme, host, path, query, fragment⟩ := by
  have hHost := List.all_eq_true.mp hhall
  have hPath := List.all_eq_true.mp hpall
  have hQser := serializePairs_chars (List.all_eq_true.mp hq)
  have hHostHash : ∀ c ∈ host.data, notHash c = true := fun c hc => by
    simp only [notHash, decide_eq_true_eq]
    exact bool_ne_of (hHost c hc) (by decide)
  have hHostQm : ∀ c ∈ host.data, notQm c = true := fun c hc => by
    simp only [notQm, decide_eq_true_eq]
    exact bool_ne_of (hHost c hc) (by decide)
  have hHostSlash : ∀ c ∈ host.data, notSlash c = true := fun c hc => by
    simp only [notSlash, decide_eq_true_eq]
    exact bool_ne_of (hHost c hc) (by decide)
  have hPathHash : ∀ c ∈ path.data, notHash c = true := fun c hc => by
    simp only [notHash, decide_eq_true_eq]
    exact bool_ne_of (hPath c hc) (by decide)
  have hPathQm : ∀ c ∈ path.data, notQm c = true := fun c hc => by
    simp only [notQm, decide_eq_true_eq]
    exact bool_ne_of (hPath c hc) (by decide)
  have hQHash : ∀ c ∈ querySerChars query, notHash c = true := by
    intro c hc
    cases query with
    | nil => simp [querySerChars] at hc
    | cons a l =>
      rw [show querySerChars (a :: l) = '?' :: serializePairs (a :: l) from
        rfl] at hc
      rcases List.mem_cons.mp hc with rfl | hc
      · decide
      · simp only [notHash, decide_eq_true_eq]
        exact bool_ne_of (hQser c hc) (by decide)
  obtain ⟨p0, ptail, hpcons⟩ :
      ∃ p0 ptail, path.data = p0 :: ptail := by
    cases hp : path.data with
    | nil => exact absurd hp hpne
    | cons a t => exact ⟨a, t, rfl⟩
  have hp0 : p0 = '/' := by
    rw [hpcons] at hphead
    simpa using hphead
  subst hp0
  have hFt : (fragSerChars fragment).takeWhile notHash = [] := by
    cases fragment with
    | none => rfl
    | some f => exact List.takeWhile_cons_of_neg (by decide)
  have hFd : (fragSerChars fragment).dropWhile notHash = fragSerChars fragment := by
    cases fragment with
    | none => rfl
    | some f => exact List.dropWhile_cons_of_neg (by decide)
  have hQt : (querySerChars query).takeWhile notQm = [] := by
    cases query with
    | nil => rfl
    | cons a l => exact List.takeWhile_cons_of_neg (by decide)
  have hQd : (querySerChars query).dropWhile notQm = querySerChars query := by
    cases query with
    | nil => rfl
    | cons a l => exact List.dropWhile_cons_of_neg (by decide)
  have e1 : (host.data ++ (path.data ++
      (querySerChars query ++ fragSerChars fragment))).takeWhile notHash =
      host.data ++ (path.data ++ querySerChars query) := by
    rw [takeWhile_append_all hHostHash, takeWhile_append_all hPathHash,
      takeWhile_append_all hQHash, hFt, List.append_nil]
  have e2 : (host.data ++ (path.data ++
      (querySerChars query ++ fragSerChars fragment))).dropWhile notHash =
      fragSerChars fragment := by
    rw [dropWhile_append_all hHostHash, dropWhile_append_all hPathHash,
      dropWhile_append_all hQHash, hFd]
  have e3 : (host.data ++ (path.data ++ querySerChars query)).takeWhile notQm =
      host.data ++ path.data := by
    rw [takeWhile_append_all hHostQm, takeWhile_append_all hPathQm, hQt,
      List.append_nil]
  have e4 : (host.data ++ (path.data ++ querySerChars query)).dropWhile notQm =
      querySerChars query := by
    rw [dropWhile_append_all hHostQm, dropWhile_append_all hPathQm, hQd]
  have e5 : (host.data ++ path.data).takeWhile notSlash = host.data := by
    rw [takeWhile_append_all hHostSlash, hpcons,
      List.takeWhile_cons_of_neg (by decide), List.append_nil]
  have e6 : (host.data ++ path.data).dropWhile notSlash = path.data := by
    rw [dropWhile_append_all hHostSlash, hpcons,
      List.dropWhile_cons_of_neg (by decide)]
  have e7 : host.data.map Char.toLower = host.data := by
    rw [List.map_congr_left (fun a ha => toLower_of_host (hHost a ha)),
      List.map_id']
  have e8 : (⟨host.data⟩ : String) = host := rfl
  have e9 : (⟨path.data⟩ : String) = path := rfl
  have hwf : UrlObj.wf ⟨scheme, host, path, query, fragment⟩ = true := by
    simp only [UrlObj.wf, decide_eq_true_eq]
    exact ⟨hs, ⟨hhne, hhall⟩, ⟨hpne, hphead, hpall, hpdot⟩, hq, hf⟩
  unfold URL.parseAfterScheme
  simp only [e1, e2, e3, e4, e5, e6, e7]
  simp only [if_neg hpne]
  cases fragment with
  | none =>
    simp only [fragSerChars]
    cases query with
    | nil =>
      simp only [querySerChars, e8, e9]
      exact validated_of_wf hwf
    | cons a l =>
      have hpq := @parseQuery_serialized (a :: l) (by simp)
        (List.all_eq_true.mp hq)
      simp only [querySerChars, hpq, e8, e9]
      exact validated_of_wf hwf
  | some f =>
    simp only [fragSerChars]
    have e10 : (⟨f.data⟩ : String) = f := rfl
    cases query with
    | nil =>
      simp only [querySerChars, e8, e9, e10]
      exact validated_of_wf hwf
    | cons a l =>
      have hpq := @parseQuery_serialized (a :: l) (by simp)
        (List.all_eq_true.mp hq)
      simp only [querySerChars, hpq, e8, e9, e10]
      exact validated_of_wf hwf

theorem dropSchemeHttp_http_eq (rest : List Char) :
    dropSchemeHttp ('h' :: 't' :: 't' :: 'p' :: ':' :: '/' :: '/' :: rest) =
      some ("http", rest) := rfl

theorem dropSchemeHttp_https_eq (rest : List Char) :
    dropSchemeHttp
        ('h' :: 't' :: 't' :: 'p' :: 's' :: ':' :: '/' :: '/' :: rest) =
      some ("https", rest) := rfl

/-- Full round trip: parsing the serialization of a well-formed URL object
recovers the object. -/
theorem parse_href {u : UrlObj} (h : u.wf = true) :
    URL.parse u.href = some u := by
  obtain ⟨scheme, host, path, query, fragment⟩ := u
  simp only [UrlObj.wf, decide_eq_true_eq] at h
  obtain ⟨hs, ⟨hhne, hhall⟩, ⟨hpne, hphead, hpall, hpdot⟩, hq, hf⟩ := h
  unfold URL.parse
  have hdata : (UrlObj.href ⟨scheme, host, path, query, fragment⟩).data =
      scheme.data ++ ':' :: '/' :: '/' :: (host.data ++ (path.data ++
        (querySerChars query ++ fragSerChars fragment))) := rfl
  rw [hdata]
  rcases hs with rfl | rfl
  · rw [show ("http" : String).data = ['h', 't', 't', 'p'] from rfl]
    simp only [List.cons_append, List.nil_append]
    rw [dropSchemeHttp_http_eq]
    exact parseAfterScheme_serialized (Or.inl rfl) hhne hhall hpne hphead
      hpall hpdot hq hf
  · rw [show ("https" : String).data = ['h', 't', 't', 'p', 's'] from rfl]
    simp only [List.cons_append, List.nil_append]
    rw [dropSchemeHttp_https_eq]
    exact parseAfterScheme_serialized (Or.inr rfl) hhne hhall hpne hphead
      hpall hpdot hq hf

/-! ### Every parse result is well-formed -/

theorem parseAfterScheme_wf {sch : String} {rest : List Char} {u : UrlObj}
    (h : URL.parseAfterScheme sch rest = some u) : u.wf = true := by
  unfold URL.parseAfterScheme at h
  simp only [] at h
  split at h
  · cases h
  · obtain ⟨rfl, hwf⟩ := validated_some h
    exact hwf

/-- Everything `URL.parse` accepts satisfies the well-formedness invariant. -/
theorem parse_wf {s : String} {u : UrlObj} (h : URL.parse s = some u) :
    u.wf = true := by
  unfold URL.parse at h
  cases hd : dropSchemeHttp s.data with
  | none => rw [hd] at h; cases h
  | some p =>
    obtain ⟨sch, rest⟩ := p
    rw [hd] at h
    exact parseAfterScheme_wf h

/-! ## The URL mutations performed by the library, and their wf-preservation -/

/-- `url.searchParams.delete(name)` removes every pair with exactly that
name; any mutation re-serializes the query, which on the embedded domain is
the identity on the remaining pairs. -/
def deleteParam (u : UrlObj) (name : String) : UrlObj :=
  { u with query := u.query.filter (fun pr => ¬ pr.1 = name) }

/-- `hostname.replace(/^www\./, "")`. -/
def stripWwwHost (h : String) : String :=
  if strStarts h "www." then ⟨h.data.drop 4⟩ else h

/-- The WHATWG `hostname` setter: assigning an empty hostname to a URL with
a special scheme is ignored, otherwise the hostname is replaced. -/
def setHostname (u : UrlObj) (h : String) : UrlObj :=
  if h = "" then u else { u with host := h }

/-- `pathname = pathname.slice(0, -1)` guarded by
`pathname !== "/" && pathname.endsWith("/")`. -/
def dropTrailingSlash (p : String) : String :=
  if ¬ p = "/" ∧ p.data.getLast? = some '/' then ⟨p.data.dropLast⟩ else p

/-- `key.toLowerCase().startsWith("utm_")` (ASCII lowercasing; the embedded
query-character domain is ASCII). -/
def isUtmKey (k : String) : Bool :=
  strStarts ⟨k.data.map Char.toLower⟩ "utm_"

/-- Drop every `utm_*` query parameter, the net effect of the source's
`Array.from(searchParams.keys()).forEach(... delete ...)` loop. -/
def deleteUtmParams (u : UrlObj) : UrlObj :=
  { u with query := u.query.filter (fun pr => ¬ isUtmKey pr.1) }

/-- `hash = ""` sets the fragment to null, removing the `#` part. -/
def clearFragment (u : UrlObj) : UrlObj :=
  { u with fragment := none }

theorem exists_concat_of_getLast {l : List Char} {a : Char}
    (h : l.getLast? = some a) : ∃ q, l = q ++ [a] := by
  rw [List.getLast?_eq_head?_reverse] at h
  cases hr : l.reverse with
  | nil => rw [hr] at h; cases h
  | cons b t =>
    rw [hr] at h
    obtain rfl : b = a := by simpa using h
    refine ⟨t.reverse, ?_⟩
    have := congrArg List.reverse hr
    simpa using this

theorem splitOn1_concat_sep (sep : Char) (l : List Char) :
    splitOn1 sep (l ++ [sep]) = splitOn1 sep l ++ [[]] := by
  induction l with
  | nil => simp [splitOn1]
  | cons c cs ih =>
    by_cases hc : c = sep
    · subst hc
      simp only [List.cons_append, splitOn1, if_pos rfl, List.append_eq, ih]
      simp
    · simp only [List.cons_append, splitOn1, if_neg hc, List.append_eq]
      cases h : splitOn1 sep cs with
      | nil => exact absurd h (splitOn1_ne_nil sep cs)
      | cons p ps =>
        rw [ih, h]
        simp

theorem noDotSegs_dropLast {p : List Char} (hd : noDotSegs p = true)
    (hl : p.getLast? = some '/') : noDotSegs p.dropLast = true := by
  obtain ⟨q, rfl⟩ := exists_concat_of_getLast hl
  rw [show (q ++ ['/']).dropLast = q by simp]
  unfold noDotSegs pathSegs at hd ⊢
  rw [show q ++ ['/'] = q ++ ['/'] ++ [] by simp, List.append_assoc] at hd
  rw [show ['/'] ++ [] = '/' :: [] from rfl] at hd
  rw [splitOn1_concat_sep] at hd
  simp only [List.all_append, Bool.and_eq_true] at hd
  exact hd.1

theorem wf_deleteParam {u : UrlObj} (h : u.wf = true) (name : String) :
    (deleteParam u name).wf = true := by
  simp only [UrlObj.wf, decide_eq_true_eq] at h ⊢
  obtain ⟨hs, hh, hp, hq, hf⟩ := h
  refine ⟨hs, hh, hp, ?_, hf⟩
  simp only [deleteParam]
  rw [List.all_eq_true] at hq ⊢
  intro x hx
  exact hq x (List.mem_of_mem_filter hx)

theorem wf_deleteUtmParams {u : UrlObj} (h : u.wf = true) :
    (deleteUtmParams u).wf = true := by
  simp only [UrlObj.wf, decide_eq_true_eq] at h ⊢
  obtain ⟨hs, hh, hp, hq, hf⟩ := h
  refine ⟨hs, hh, hp, ?_, hf⟩
  simp only [deleteUtmParams]
  rw [List.all_eq_true] at hq ⊢
  intro x hx
  exact hq x (List.mem_of_mem_filter hx)

theorem wf_clearFragment {u : UrlObj} (h : u.wf = true) :
    (clearFragment u).wf = true := by
  simp only [UrlObj.wf, decide_eq_true_eq] at h ⊢
  obtain ⟨hs, hh, hp, hq, -⟩ := h
  exact ⟨hs, hh, hp, hq, rfl⟩

theorem wf_setHostname_stripWww {u : UrlObj} (h : u.wf = true) :
    (setHostname u (stripWwwHost u.host)).wf = true := by
  unfold setHostname
  split
  · exact h
  · rename_i hne
    simp only [UrlObj.wf, decide_eq_true_eq] at h ⊢
    obtain ⟨hs, ⟨hhne, hhall⟩, hp, hq, hf⟩ := h
    refine ⟨hs, ⟨?_, ?_⟩, hp, hq, hf⟩
    · intro hdata
      exact hne (show stripWwwHost u.host = "" from String.ext hdata)
    · unfold stripWwwHost
      split
      · rw [List.all_eq_true] at hhall ⊢
        intro x hx
        exact hhall x (List.mem_of_mem_drop hx)
      · exact hhall

theorem wf_dropTrailingSlash {u : UrlObj} (h : u.wf = true) :
    { u with path := dropTrailingSlash u.path }.wf = true := by
  simp only [UrlObj.wf, decide_eq_true_eq] at h ⊢
  obtain ⟨hs, hh, ⟨hpne, hphead, hpall, hpdot⟩, hq, hf⟩ := h
  refine ⟨hs, hh, ?_, hq, hf⟩
  unfold dropTrailingSlash
  split
  · rename_i hcond
    obtain ⟨hroot, hlast⟩ := hcond
    obtain ⟨q, hqe⟩ := exists_concat_of_getLast hlast
    have hqne : ¬ q = [] := by
      intro hq0
      apply hroot
      apply String.ext
      rw [hqe, hq0]
      rfl
    have hdrop : (⟨u.path.data.dropLast⟩ : String).data = q := by
      rw [hqe]
      simp
    refine ⟨?_, ?_, ?_, ?_⟩
    · rw [hdrop]; exact hqne
    · rw [hdrop]
      cases hq1 : q with
      | nil => exact absurd hq1 hqne
      | cons c t =>
        have : u.path.data.head? = some c := by
          rw [hqe, hq1]
          rfl
        rw [this] at hphead
        exact hphead
    · rw [hdrop]
      rw [List.all_eq_true] at hpall ⊢
      intro x hx
      refine hpall x ?_
      rw [hqe]
      exact List.mem_append_left _ hx
    · rw [hdrop]
      have := noDotSegs_dropLast hpdot hlast
      rw [hqe] at this
      simpa using this
  · exact ⟨hpne, hphead, hpall, hpdot⟩

/-! ## Serialization facts: `href` of a well-formed URL is trim-stable,
nonempty and starts with `http` -/

/-- A whitespace character belongs to none of the component classes. -/
theorem ws_not_class {c : Char} (hws : isJsWs c = true) :
    isHostChar c = false ∧ isPathChar c = false ∧ isQChar c = false ∧
      isFragChar c = false := by
  simp only [isJsWs, decide_eq_true_eq] at hws
  rcases hws with rfl | rfl | rfl | rfl | rfl | rfl | rfl | rfl <;>
    exact ⟨by decide, by decide, by decide, by decide⟩

theorem class_not_ws {p : Char → Bool} {c : Char}
    (hsel : ∀ d, isJsWs d = true → p d = false) (h : p c = true) :
    isJsWs c = false := by
  cases hw : isJsWs c with
  | false => rfl
  | true =>
    rw [hsel c hw] at h
    exact absurd h (by simp)

theorem href_no_ws {u : UrlObj} (h : u.wf = true) :
    ∀ c ∈ u.href.data, isJsWs c = false := by
  simp only [UrlObj.wf, decide_eq_true_eq] at h
  obtain ⟨hs, ⟨-, hhall⟩, ⟨-, -, hpall, -⟩, hq, hf⟩ := h
  have hQser := serializePairs_chars (List.all_eq_true.mp hq)
  intro c hc
  have hdata : u.href.data = u.scheme.data ++ ':' :: '/' :: '/' ::
      (u.host.data ++ (u.path.data ++
        (querySerChars u.query ++ fragSerChars u.fragment))) := rfl
  rw [hdata] at hc
  rcases List.mem_append.mp hc with hc | hc
  · rcases hs with hsch | hsch <;> rw [hsch] at hc <;> fin_cases hc <;> decide
  · rcases List.mem_cons.mp hc with rfl | hc
    · decide
    rcases List.mem_cons.mp hc with rfl | hc
    · decide
    rcases List.mem_cons.mp hc with rfl | hc
    · decide
    rcases List.mem_append.mp hc with hc | hc
    · exact class_not_ws (fun d hd => (ws_not_class hd).1)
        ((List.all_eq_true.mp hhall) c hc)
    rcases List.mem_append.mp hc with hc | hc
    · exact class_not_ws (fun d hd => (ws_not_class hd).2.1)
        ((List.all_eq_true.mp hpall) c hc)
    rcases List.mem_append.mp hc with hc | hc
    · cases hus : u.query with
      | nil => rw [hus] at hc; simp [querySerChars] at hc
      | cons a l =>
        rw [hus] at hc
        rw [show querySerChars (a :: l) = '?' :: serializePairs (a :: l)
          from rfl] at hc
        rcases List.mem_cons.mp hc with rfl | hc
        · decide
        · have hq2 := hQser c (by rw [hus]; exact hc)
          simp only [isQSerChar, decide_eq_true_eq] at hq2
          rcases hq2 with hq2 | rfl | rfl
          · exact class_not_ws (fun d hd => (ws_not_class hd).2.2.1) hq2
          · decide
          · decide
    · cases huf : u.fragment with
      | none => rw [huf] at hc; simp [fragSerChars] at hc
      | some f =>
        rw [huf] at hc
        rw [show fragSerChars (some f) = '#' :: f.data from rfl] at hc
        rcases List.mem_cons.mp hc with rfl | hc
        · decide
        · rw [huf] at hf
          exact class_not_ws (fun d hd => (ws_not_class hd).2.2.2)
            ((List.all_eq_true.mp (by simpa [fragWf] using hf)) c hc)

theorem jsTrim_href {u : UrlObj} (h : u.wf = true) : jsTrim u.href = u.href :=
  jsTrim_eq_self (href_no_ws h)

theorem href_starts_http {u : UrlObj} (h : u.wf = true) :
    strStarts u.href "http" = true := by
  simp only [UrlObj.wf, decide_eq_true_eq] at h
  obtain ⟨hs, -⟩ := h
  unfold strStarts
  have hdata : u.href.data = u.scheme.data ++ ':' :: '/' :: '/' ::
      (u.host.data ++ (u.path.data ++
        (querySerChars u.query ++ fragSerChars u.fragment))) := rfl
  rw [hdata]
  rcases hs with hsch | hsch <;> rw [hsch] <;> simp [List.isPrefixOf]

theorem href_ne_empty {u : UrlObj} (h : u.wf = true) : ¬ u.href = "" := by
  intro he
  have := href_starts_http h
  rw [he] at this
  exact absurd this (by decide)

/-- Whatever `URL.parse` accepts starts with `http` (the scheme is literal),
so the `https://`-prefixing fallback of `normalizeUrl` is definitive: a
string not starting with `http` never parses directly. -/
theorem parse_starts_http {s : String} {u : UrlObj}
    (h : URL.parse s = some u) : strStarts s "http" = true := by
  unfold URL.parse at h
  cases hd : dropSchemeHttp s.data with
  | none => rw [hd] at h; cases h
  | some p =>
    unfold dropSchemeHttp at hd
    unfold strStarts
    split at hd
    · rename_i rest heq
      rw [heq]
      simp [List.isPrefixOf]
    · rename_i rest heq
      rw [heq]
      simp [List.isPrefixOf]
    · cases hd

/-! ## The library operations on URL strings
(src/lib/utils/index.ts and src/lib/storage/index.ts) -/

/-- The argument of `new URL(...)` inside `normalizeUrl`:
`url.startsWith("http") ? url : \x60https://${url}\x60`. -/
def withHttps (url : String) : String :=
  if strStarts url "http" then url else "https://" ++ url

/-- Embedding of `normalizeUrl` (src/lib/utils/index.ts): parse the string,
prefixing `https://` unless it starts with `http`; return the parsed `href`,
or the input unchanged when parsing throws. -/
def normalizeUrl (url : String) : String :=
  match URL.parse (withHttps url) with
  | some urlObj => urlObj.href
  | none => url

/-- Embedding of `stripRefParam` (src/lib/utils/index.ts): trim; empty input
is returned as given; otherwise normalize, re-parse, delete the `ref` search
parameter and serialize; parse failure returns the input unchanged. -/
def stripRefParam (url : String) : String :=
  let trimmed := jsTrim url
  if trimmed = "" then url
  else
    match URL.parse (normalizeUrl trimmed) with
    | some parsed => (deleteParam parsed "ref").href
    | none => url

/-- The object-level canonicalization performed by `normalizeCompareUrl`:
strip one leading `www.` from the hostname (the assignment is ignored when
the stripped hostname is empty), clear the fragment, delete the `ref`
parameter and every `utm_*` parameter, and drop one trailing slash from a
non-root path — in source order. -/
def canonFn (u : UrlObj) : UrlObj :=
  let u1 := setHostname u (stripWwwHost u.host)
  let u2 := clearFragment u1
  let u3 := deleteParam u2 "ref"
  let u4 := deleteUtmParams u3
  { u4 with path := dropTrailingSlash u4.path }

/-- Embedding of `normalizeCompareUrl` (src/lib/storage/index.ts): trim;
empty input returned as given (the original, untrimmed `url`); otherwise
normalize, parse, apply the canonical mutations and serialize; parse failure
returns the original `url` unchanged. -/
def normalizeCompareUrl (url : String) : String :=
  let trimmed := jsTrim url
  if trimmed = "" then url
  else
    match URL.parse (normalizeUrl trimmed) with
    | some parsed => (canonFn parsed).href
    | none => url

/-- The deduplication key of `dedupeBookmarks`:
`normalizeCompareUrl(stripRefParam(url))`. -/
def canonKey (url : String) : String :=
  normalizeCompareUrl (stripRefParam url)

/-! ## Master lemmas: the string functions through the object level -/

theorem normalizeUrl_of_parse {s : String} {u : UrlObj}
    (h : URL.parse (withHttps s) = some u) : normalizeUrl s = u.href := by
  unfold normalizeUrl
  rw [h]

theorem normalizeUrl_of_fail {s : String}
    (h : URL.parse (withHttps s) = none) : normalizeUrl s = s := by
  unfold normalizeUrl
  rw [h]

theorem withHttps_of_starts {s : String} (h : strStarts s "http" = true) :
    withHttps s = s := by
  unfold withHttps
  rw [if_pos h]

/-- A string the parser accepts is not affected by the `https://` fallback,
and the fallback is definitive: if the prefixed form fails so does the raw
string. -/
theorem parse_raw_of_withHttps_fail {s : String}
    (h : URL.parse (withHttps s) = none) : URL.parse s = none := by
  cases hp : URL.parse s with
  | none => rfl
  | some u =>
    rw [withHttps_of_starts (parse_starts_http hp), hp] at h
    cases h

theorem stripRefParam_of_parse {s : String} {u : UrlObj}
    (ht : ¬ jsTrim s = "") (h : URL.parse (withHttps (jsTrim s)) = some u) :
    stripRefParam s = (deleteParam u "ref").href := by
  have hnu : normalizeUrl (jsTrim s) = u.href := normalizeUrl_of_parse h
  unfold stripRefParam
  simp only [if_neg ht]
  rw [hnu, parse_href (parse_wf h)]

theorem stripRefParam_of_fail {s : String}
    (h : URL.parse (withHttps (jsTrim s)) = none) : stripRefParam s = s := by
  by_cases ht : jsTrim s = ""
  · unfold stripRefParam
    simp only [if_pos ht]
  · have hnu : normalizeUrl (jsTrim s) = jsTrim s := normalizeUrl_of_fail h
    unfold stripRefParam
    simp only [if_neg ht]
    rw [hnu, parse_raw_of_withHttps_fail h]

theorem normalizeCompareUrl_of_parse {s : String} {u : UrlObj}
    (ht : ¬ jsTrim s = "") (h : URL.parse (withHttps (jsTrim s)) = some u) :
    normalizeCompareUrl s = (canonFn u).href := by
  have hnu : normalizeUrl (jsTrim s) = u.href := normalizeUrl_of_parse h
  unfold normalizeCompareUrl
  simp only [if_neg ht]
  rw [hnu, parse_href (parse_wf h)]

theorem normalizeCompareUrl_of_fail {s : String}
    (h : URL.parse (withHttps (jsTrim s)) = none) :
    normalizeCompareUrl s = s := by
  by_cases ht : jsTrim s = ""
  · unfold normalizeCompareUrl
    simp only [if_pos ht]
  · have hnu : normalizeUrl (jsTrim s) = jsTrim s := normalizeUrl_of_fail h
    unfold normalizeCompareUrl
    simp only [if_neg ht]
    rw [hnu, parse_raw_of_withHttps_fail h]

/-! ## Component views of `canonFn`, and the idempotence lemmas -/

theorem UrlObj.ext2 {u v : UrlObj} (h1 : u.scheme = v.scheme)
    (h2 : u.host = v.host) (h3 : u.path = v.path) (h4 : u.query = v.query)
    (h5 : u.fragment = v.fragment) : u = v := by
  cases u
  cases v
  simp_all

theorem canonFn_scheme (u : UrlObj) : (canonFn u).scheme = u.scheme := by
  unfold canonFn setHostname
  split <;> rfl

theorem canonFn_host (u : UrlObj) :
    (canonFn u).host = (setHostname u (stripWwwHost u.host)).host := by
  unfold canonFn setHostname
  split <;> rfl

theorem canonFn_path (u : UrlObj) :
    (canonFn u).path = dropTrailingSlash u.path := by
  unfold canonFn setHostname
  split <;> rfl

theorem canonFn_query (u : UrlObj) :
    (canonFn u).query = (u.query.filter (fun pr => ¬ pr.1 = "ref")).filter
      (fun pr => ¬ isUtmKey pr.1) := by
  unfold canonFn setHostname
  split <;> rfl

theorem canonFn_fragment (u : UrlObj) : (canonFn u).fragment = none := by
  unfold canonFn setHostname
  split <;> rfl

theorem filter_idem {α : Type} (p : α → Bool) (l : List α) :
    (l.filter p).filter p = l.filter p := by
  induction l with
  | nil => rfl
  | cons a l ih =>
    by_cases hp : p a = true <;> simp [List.filter_cons, hp, ih]

theorem deleteParam_idem (u : UrlObj) (name : String) :
    deleteParam (deleteParam u name) name = deleteParam u name := by
  unfold deleteParam
  simp only []
  refine UrlObj.ext2 rfl rfl rfl ?_ rfl
  exact filter_idem _ u.query

/-- Deleting `ref` before canonicalizing is absorbed by the `ref` deletion
inside the canonicalization. -/
theorem canonFn_deleteParam_ref (u : UrlObj) :
    canonFn (deleteParam u "ref") = canonFn u := by
  refine UrlObj.ext2 ?_ ?_ ?_ ?_ ?_
  · rw [canonFn_scheme, canonFn_scheme]
    rfl
  · rw [canonFn_host, canonFn_host]
    unfold setHostname deleteParam stripWwwHost
    simp only []
    split <;> split <;> rfl
  · rw [canonFn_path, canonFn_path]
    rfl
  · rw [canonFn_query, canonFn_query]
    show ((u.query.filter _).filter _).filter _ = _
    rw [filter_idem]
  · rw [canonFn_fragment, canonFn_fragment]

theorem wf_canonFn {u : UrlObj} (h : u.wf = true) : (canonFn u).wf = true := by
  unfold canonFn
  exact wf_dropTrailingSlash (wf_deleteUtmParams (wf_deleteParam
    (wf_clearFragment (wf_setHostname_stripWww h)) "ref"))

theorem wf_href_facts {u : UrlObj} (h : u.wf = true) :
    jsTrim u.href = u.href ∧ ¬ u.href = "" ∧ withHttps u.href = u.href := by
  exact ⟨jsTrim_href h, href_ne_empty h,
    withHttps_of_starts (href_starts_http h)⟩

/-! ## Idempotence at the string level -/

/-- `stripRefParam` is idempotent on every string: a failed parse returns the
input unchanged, and a successful one returns a serialization that re-parses
to the same object, whose `ref` parameters are already gone. -/
theorem stripRefParam_idem (s : String) :
    stripRefParam (stripRefParam s) = stripRefParam s := by
  cases hp : URL.parse (withHttps (jsTrim s)) with
  | none => rw [stripRefParam_of_fail hp, stripRefParam_of_fail hp]
  | some u =>
    by_cases ht : jsTrim s = ""
    · rw [ht] at hp
      have hnone : URL.parse (withHttps "") = none := by decide
      rw [hnone] at hp
      cases hp
    · rw [stripRefParam_of_parse ht hp]
      have hwf : (deleteParam u "ref").wf = true :=
        wf_deleteParam (parse_wf hp) "ref"
      obtain ⟨htr, hne, hwh⟩ := wf_href_facts hwf
      have hp2 : URL.parse
          (withHttps (jsTrim (deleteParam u "ref").href)) =
          some (deleteParam u "ref") := by
        rw [htr, hwh]
        exact parse_href hwf
      rw [stripRefParam_of_parse (by rw [htr]; exact hne) hp2,
        deleteParam_idem]

theorem canonKey_of_parse {s : String} {u : UrlObj} (ht : ¬ jsTrim s = "")
    (hp : URL.parse (withHttps (jsTrim s)) = some u) :
    canonKey s = (canonFn u).href := by
  unfold canonKey
  rw [stripRefParam_of_parse ht hp]
  have hwf : (deleteParam u "ref").wf = true :=
    wf_deleteParam (parse_wf hp) "ref"
  obtain ⟨htr, hne, hwh⟩ := wf_href_facts hwf
  have hp2 : URL.parse (withHttps (jsTrim (deleteParam u "ref").href)) =
      some (deleteParam u "ref") := by
    rw [htr, hwh]
    exact parse_href hwf
  rw [normalizeCompareUrl_of_parse (by rw [htr]; exact hne) hp2,
    canonFn_deleteParam_ref]

theorem canonKey_of_fail {s : String}
    (hp : URL.parse (withHttps (jsTrim s)) = none) : canonKey s = s := by
  unfold canonKey
  rw [stripRefParam_of_fail hp, normalizeCompareUrl_of_fail hp]

/-! ## Idempotence of the canonical mutations, under explicit conditions -/

/-- The hostname actually stored by the `www.`-stripping assignment (the
setter ignores an empty hostname). -/
def stripHostGuarded (h : String) : String :=
  if stripWwwHost h = "" then h else stripWwwHost h

theorem setHostname_host (u : UrlObj) (x : String) :
    (setHostname u x).host = if x = "" then u.host else x := by
  unfold setHostname
  split <;> simp_all

theorem canonFn_host_guarded (u : UrlObj) :
    (canonFn u).host = stripHostGuarded u.host := by
  rw [canonFn_host, setHostname_host]
  rfl

theorem stripWwwHost_of_not_starts {h : String}
    (hw : strStarts h "www." = false) : stripWwwHost h = h := by
  unfold stripWwwHost
  rw [show strStarts h "www." = false from hw]
  simp

theorem strStarts_cons_www {rest : List Char} :
    strStarts ⟨'w' :: 'w' :: 'w' :: '.' :: rest⟩ "www.www." =
      strStarts ⟨rest⟩ "www." := by
  unfold strStarts
  simp [List.isPrefixOf]

theorem stripGuard_fix {h : String} (hw : strStarts h "www." = false) :
    stripHostGuarded h = h := by
  unfold stripHostGuarded
  rw [stripWwwHost_of_not_starts hw]
  split <;> simp_all

theorem starts_www_decomp {h : String} (hw : strStarts h "www." = true) :
    ∃ rest, h.data = 'w' :: 'w' :: 'w' :: '.' :: rest := by
  unfold strStarts at hw
  rw [show ("www." : String).data = ['w', 'w', 'w', '.'] from rfl] at hw
  rw [List.isPrefixOf_iff_prefix] at hw
  obtain ⟨t, ht⟩ := hw
  refine ⟨t, ?_⟩
  rw [← ht]
  rfl

/-- One guarded `www.`-strip is stable unless the host began with a repeated
`www.www.` prefix. -/
theorem stripGuard_idem {h : String} (hww : strStarts h "www.www." = false) :
    stripHostGuarded (stripHostGuarded h) = stripHostGuarded h := by
  cases hw : strStarts h "www." with
  | false => rw [stripGuard_fix hw, stripGuard_fix hw]
  | true =>
    obtain ⟨rest, hdec⟩ := starts_www_decomp hw
    have hcast : h = ⟨'w' :: 'w' :: 'w' :: '.' :: rest⟩ := by
      apply String.ext
      rw [hdec]
    have hstrip : stripWwwHost h = ⟨rest⟩ := by
      unfold stripWwwHost
      rw [show strStarts h "www." = true from hw]
      simp only [if_pos rfl]
      rw [hdec]
      rfl
    cases hrest : rest with
    | nil =>
      have hempty : stripWwwHost h = "" := by rw [hstrip, hrest]
      have hfix : stripHostGuarded h = h := by
        unfold stripHostGuarded
        rw [if_pos hempty]
      rw [hfix, hfix]
    | cons c t =>
      have hne : ¬ (⟨rest⟩ : String) = "" := by
        intro he
        have hd := congrArg String.data he
        rw [hrest] at hd
        cases hd
      have hG : stripHostGuarded h = ⟨rest⟩ := by
        unfold stripHostGuarded
        rw [hstrip, if_neg hne]
      rw [hG]
      refine stripGuard_fix ?_
      rw [hcast, strStarts_cons_www] at hww
      exact hww

/-- A path ends in a double slash. -/
def endsTwoSlash (p : String) : Bool :=
  match p.data.reverse with
  | '/' :: '/' :: _ => true
  | _ => false

theorem dropTrailingSlash_idem {p : String} (h2 : endsTwoSlash p = false) :
    dropTrailingSlash (dropTrailingSlash p) = dropTrailingSlash p := by
  unfold dropTrailingSlash
  split
  · rename_i hcond
    obtain ⟨hroot, hlast⟩ := hcond
    obtain ⟨q, hqe⟩ := exists_concat_of_getLast hlast
    have hqd : (⟨p.data.dropLast⟩ : String).data = q := by
      rw [hqe]
      simp
    rw [if_neg]
    intro hcond2
    obtain ⟨hroot2, hlast2⟩ := hcond2
    rw [hqd] at hlast2
    obtain ⟨q2, hq2⟩ := exists_concat_of_getLast hlast2
    apply absurd h2
    simp only [Bool.not_eq_false]
    unfold endsTwoSlash
    rw [hqe, hq2]
    simp
  · rfl

/-- Idempotence of the object-level canonicalization, given that one
`www.`-strip and one trailing-slash removal suffice. -/
theorem filter_four {α : Type} (p q : α → Bool) (l : List α) :
    (((l.filter q).filter p).filter q).filter p = (l.filter q).filter p := by
  induction l with
  | nil => rfl
  | cons a l ih =>
    by_cases hq : q a = true <;> by_cases hp : p a = true <;>
      simp [List.filter_cons, hq, hp, ih, -List.filter_filter]

/-- Idempotence of the object-level canonicalization, given that one
`www.`-strip and one trailing-slash removal suffice. -/
theorem canonFn_idem {u : UrlObj}
    (hh : strStarts u.host "www.www." = false)
    (hp : endsTwoSlash u.path = false) :
    canonFn (canonFn u) = canonFn u := by
  refine UrlObj.ext2 ?_ ?_ ?_ ?_ ?_
  · rw [canonFn_scheme, canonFn_scheme]
  · rw [canonFn_host_guarded, canonFn_host_guarded]
    exact stripGuard_idem hh
  · rw [canonFn_path, canonFn_path]
    exact dropTrailingSlash_idem hp
  · rw [canonFn_query, canonFn_query]
    exact filter_four _ _ u.query
  · rw [canonFn_fragment, canonFn_fragment]

/-! ## URLs that differ only in canonicalized features -/

/-- Two hostnames differ only by one leading `www.` (on a base host that is
not itself `www.`-prefixed), or not at all. -/
def hostRel (h1 h2 : String) : Prop :=
  h1 = h2 ∨
    (h1.data = 'w' :: 'w' :: 'w' :: '.' :: h2.data ∧
      strStarts h2 "www." = false) ∨
    (h2.data = 'w' :: 'w' :: 'w' :: '.' :: h1.data ∧
      strStarts h1 "www." = false)

/-- Two paths differ only by one trailing slash (on a base path that does not
itself end in a slash, or is the root), or not at all. -/
def pathRel (p1 p2 : String) : Prop :=
  p1 = p2 ∨
    (p1.data = p2.data ++ ['/'] ∧
      (p2 = "/" ∨ ¬ p2.data.getLast? = some '/')) ∨
    (p2.data = p1.data ++ ['/'] ∧
      (p1 = "/" ∨ ¬ p1.data.getLast? = some '/'))

/-- The query with `ref` and `utm_*` parameters removed, in order. -/
def filteredQuery (q : List (String × String)) : List (String × String) :=
  (q.filter (fun pr => ¬ pr.1 = "ref")).filter (fun pr => ¬ isUtmKey pr.1)

/-- Two parsed URLs differ only by a `www.` host prefix, a trailing slash,
the fragment, or `ref`/`utm_*` query parameters. -/
def urlsRel (u v : UrlObj) : Prop :=
  u.scheme = v.scheme ∧ hostRel u.host v.host ∧ pathRel u.path v.path ∧
    filteredQuery u.query = filteredQuery v.query

theorem strStarts_cons_www_true {rest : List Char} :
    strStarts ⟨'w' :: 'w' :: 'w' :: '.' :: rest⟩ "www." = true := by
  unfold strStarts
  simp [List.isPrefixOf]

theorem stripGuard_of_www {h base : String}
    (hd : h.data = 'w' :: 'w' :: 'w' :: '.' :: base.data)
    (hbase : ¬ base.data = []) : stripHostGuarded h = base := by
  have hcast : h = ⟨'w' :: 'w' :: 'w' :: '.' :: base.data⟩ := by
    apply String.ext
    rw [hd]
  have hstrip : stripWwwHost h = base := by
    unfold stripWwwHost
    rw [hcast, strStarts_cons_www_true]
    simp only [if_pos rfl]
    rfl
  have hbne : ¬ base = "" := by
    intro he
    exact hbase (congrArg String.data he)
  unfold stripHostGuarded
  rw [hstrip, if_neg hbne]

theorem hostRel_canon {h1 h2 : String} (r : hostRel h1 h2)
    (hne1 : ¬ h1.data = []) (hne2 : ¬ h2.data = []) :
    stripHostGuarded h1 = stripHostGuarded h2 := by
  rcases r with rfl | ⟨hd, hbase⟩ | ⟨hd, hbase⟩
  · rfl
  · rw [stripGuard_of_www hd hne2, stripGuard_fix hbase]
  · rw [stripGuard_of_www hd hne1, stripGuard_fix hbase]

theorem dropTrailingSlash_of_concat {p base : String}
    (hd : p.data = base.data ++ ['/'] ) (hbase : ¬ base.data = []) :
    dropTrailingSlash p = base := by
  have hlast : p.data.getLast? = some '/' := by
    rw [hd]
    simp
  have hroot : ¬ p = "/" := by
    intro he
    rw [he] at hd
    cases hb : base.data with
    | nil => exact hbase hb
    | cons c t =>
      rw [hb] at hd
      have := congrArg List.length hd
      simp at this
  unfold dropTrailingSlash
  rw [if_pos ⟨hroot, hlast⟩]
  apply String.ext
  rw [hd]
  simp

theorem dropTrailingSlash_fix {p : String}
    (h : p = "/" ∨ ¬ p.data.getLast? = some '/') :
    dropTrailingSlash p = p := by
  unfold dropTrailingSlash
  rcases h with rfl | h
  · rw [if_neg]
    intro hc
    exact hc.1 rfl
  · rw [if_neg]
    intro hc
    exact h hc.2

theorem pathRel_canon {p1 p2 : String} (r : pathRel p1 p2)
    (hne1 : ¬ p1.data = []) (hne2 : ¬ p2.data = []) :
    dropTrailingSlash p1 = dropTrailingSlash p2 := by
  rcases r with rfl | ⟨hd, hbase⟩ | ⟨hd, hbase⟩
  · rfl
  · rw [dropTrailingSlash_of_concat hd hne2, dropTrailingSlash_fix hbase]
  · rw [dropTrailingSlash_of_concat hd hne1, dropTrailingSlash_fix hbase]

/-- URLs that differ only in canonicalized features canonicalize to the same
object. -/
theorem canonFn_eq_of_rel {u v : UrlObj} (hu : u.wf = true)
    (hv : v.wf = true) (r : urlsRel u v) : canonFn u = canonFn v := by
  simp only [UrlObj.wf, decide_eq_true_eq] at hu hv
  obtain ⟨-, ⟨hune, -⟩, ⟨hupne, -, -, -⟩, -, -⟩ := hu
  obtain ⟨-, ⟨hvne, -⟩, ⟨hvpne, -, -, -⟩, -, -⟩ := hv
  obtain ⟨hsch, hh, hp, hq⟩ := r
  refine UrlObj.ext2 ?_ ?_ ?_ ?_ ?_
  · rw [canonFn_scheme, canonFn_scheme, hsch]
  · rw [canonFn_host_guarded, canonFn_host_guarded]
    exact hostRel_canon hh hune hvne
  · rw [canonFn_path, canonFn_path]
    exact pathRel_canon hp hupne hvpne
  · rw [canonFn_query, canonFn_query]
    exact hq
  · rw [canonFn_fragment, canonFn_fragment]

/-- Idempotence of `normalizeCompareUrl` on parse failures, and on parse
successes whose host and path admit a single strip. -/
theorem normalizeCompareUrl_idem_of_parse {s : String} {u : UrlObj}
    (ht : ¬ jsTrim s = "") (hp : URL.parse (withHttps (jsTrim s)) = some u)
    (hh : strStarts u.host "www.www." = false)
    (hpa : endsTwoSlash u.path = false) :
    normalizeCompareUrl (normalizeCompareUrl s) = normalizeCompareUrl s := by
  rw [normalizeCompareUrl_of_parse ht hp]
  have hwfc : (canonFn u).wf = true := wf_canonFn (parse_wf hp)
  obtain ⟨htr, hne, hwh⟩ := wf_href_facts hwfc
  have hp2 : URL.parse (withHttps (jsTrim (canonFn u).href)) =
      some (canonFn u) := by
    rw [htr, hwh]
    exact parse_href hwfc
  rw [normalizeCompareUrl_of_parse (by rw [htr]; exact hne) hp2,
    canonFn_idem hh hpa]

theorem normalizeCompareUrl_idem_of_fail {s : String}
    (hp : URL.parse (withHttps (jsTrim s)) = none) :
    normalizeCompareUrl (normalizeCompareUrl s) = normalizeCompareUrl s := by
  rw [normalizeCompareUrl_of_fail hp, normalizeCompareUrl_of_fail hp]

/-! ## Bookmarks and deduplication (src/lib/storage/index.ts) -/

/-- The `Bookmark` record type as declared in the types module of the
source (the interface exported alongside `Collection`, `BookmarkMetadata`
and `TagDefinition`): `id`, `url`, `title`, `description` and
`collectionId` are required strings, `icon` and `image` optional strings,
`tags` a required string array, and `createdAt`/`updatedAt` required
integer timestamps. -/
structure Bookmark where
  id : String
  url : String
  title : String
  description : String
  icon : Option String
  image : Option String
  tags : List String
  collectionId : String
  createdAt : Nat
  updatedAt : Nat
  deriving Repr, DecidableEq

/-- The record stored by `byUrl.set`: the spread `{...bookmark}` with `url`
rewritten to the canonical key.  The source also writes
`updatedAt: bookmark.updatedAt ?? Date.now()` and
`createdAt: bookmark.createdAt ?? Date.now()`; on the declared `Bookmark`
interface both timestamps are required numbers, so the `??` fallbacks never
fire and the spread keeps the input's timestamps (`now` models the
`Date.now()` clock of the dead fallback). -/
def finalizeBookmark (now : Nat) (key : String) (b : Bookmark) : Bookmark :=
  { b with
    url := key
    updatedAt := b.updatedAt
    createdAt := b.createdAt }

/-- JS `Map.get`. -/
def mapGet : List (String × Bookmark) → String → Option Bookmark
  | [], _ => none
  | (k, v) :: rest, key => if k = key then some v else mapGet rest key

/-- JS `Map.set`: replaces in place on an existing key (insertion order is
preserved), appends otherwise. -/
def mapSet : List (String × Bookmark) → String → Bookmark →
    List (String × Bookmark)
  | [], key, v => [(key, v)]
  | (k, w) :: rest, key, v =>
    if k = key then (k, v) :: rest else (k, w) :: mapSet rest key v

/-- The conflict test of `dedupeBookmarks` against an existing map entry:
`(existingInDefault && !incomingInDefault) ||
 ((existingInDefault === incomingInDefault) &&
  (bookmark.updatedAt ?? 0) > (existing.updatedAt ?? 0))`.
On the declared `Bookmark` interface `updatedAt` is a required number, so
the two `?? 0` fallbacks are identities. -/
def preferIncoming (existing incoming : Bookmark) : Bool :=
  let existingInDefault : Bool := existing.collectionId = "default"
  let incomingInDefault : Bool := incoming.collectionId = "default"
  (existingInDefault && !incomingInDefault) ||
    ((existingInDefault == incomingInDefault) &&
      decide (incoming.updatedAt > existing.updatedAt))

/-- One iteration of the `for (const bookmark of bookmarks)` loop. -/
def dedupeStep (now : Nat) (m : List (String × Bookmark))
    (bookmark : Bookmark) : List (String × Bookmark) :=
  let normalized := canonKey bookmark.url
  match mapGet m normalized with
  | none => mapSet m normalized (finalizeBookmark now normalized bookmark)
  | some existing =>
    if preferIncoming existing bookmark then
      mapSet m normalized (finalizeBookmark now normalized bookmark)
    else m

/-- Embedding of `dedupeBookmarks`: fold the records into the url-keyed map
and return `Array.from(byUrl.values())` (the values in key-insertion
order). -/
def dedupeBookmarks (now : Nat) (bookmarks : List Bookmark) :
    List Bookmark :=
  (bookmarks.foldl (dedupeStep now) []).map Prod.snd

/-! ### Map lemmas -/

theorem mapGet_none_not_mem {m : List (String × Bookmark)} {k : String}
    (h : mapGet m k = none) : k ∉ m.map Prod.fst := by
  induction m with
  | nil => simp
  | cons pr rest ih =>
    obtain ⟨k', v⟩ := pr
    unfold mapGet at h
    split at h
    · cases h
    · rename_i hne
      simp only [List.map_cons, List.mem_cons]
      rintro (rfl | hmem)
      · exact hne rfl
      · exact ih h hmem

theorem mapSet_of_get_none {m : List (String × Bookmark)} {k : String}
    (h : mapGet m k = none) (v : Bookmark) : mapSet m k v = m ++ [(k, v)] := by
  induction m with
  | nil => rfl
  | cons pr rest ih =>
    obtain ⟨k', w⟩ := pr
    unfold mapGet at h
    split at h
    · cases h
    · rename_i hne
      unfold mapSet
      rw [if_neg hne, ih h]
      rfl

theorem mapSet_keys_of_get_some {m : List (String × Bookmark)} {k : String}
    {w : Bookmark} (h : mapGet m k = some w) (v : Bookmark) :
    (mapSet m k v).map Prod.fst = m.map Prod.fst ∧
      (mapSet m k v).length = m.length := by
  induction m with
  | nil => cases h
  | cons pr rest ih =>
    obtain ⟨k', w'⟩ := pr
    unfold mapGet at h
    unfold mapSet
    split at h
    · rename_i heq
      rw [if_pos heq]
      exact ⟨rfl, rfl⟩
    · rename_i hne
      rw [if_neg hne]
      obtain ⟨h1, h2⟩ := ih h
      refine ⟨?_, ?_⟩
      · simp only [List.map_cons, h1]
      · simp only [List.length_cons, h2]

theorem mapSet_mem {m : List (String × Bookmark)} {k : String} {v : Bookmark}
    {pr : String × Bookmark} (h : pr ∈ mapSet m k v) :
    pr = (k, v) ∨ pr ∈ m := by
  induction m with
  | nil =>
    unfold mapSet at h
    simp only [List.mem_singleton] at h
    exact Or.inl h
  | cons pr0 rest ih =>
    obtain ⟨k', w⟩ := pr0
    unfold mapSet at h
    split at h
    · rename_i heq
      rcases List.mem_cons.mp h with rfl | hmem
      · subst heq
        exact Or.inl rfl
      · exact Or.inr (List.mem_cons_of_mem _ hmem)
    · rcases List.mem_cons.mp h with rfl | hmem
      · exact Or.inr (List.mem_cons_self _ _)
      · rcases ih hmem with h1 | h1
        · exact Or.inl h1
        · exact Or.inr (List.mem_cons_of_mem _ h1)

theorem dedupeStep_length (now : Nat) (m : List (String × Bookmark))
    (b : Bookmark) : (dedupeStep now m b).length ≤ m.length + 1 := by
  unfold dedupeStep
  simp only []
  cases hg : mapGet m (canonKey b.url) with
  | none =>
    rw [mapSet_of_get_none hg]
    simp
  | some w =>
    split
    · rename_i heq
      exact absurd heq (by simp)
    · rename_i existing heq
      obtain rfl : w = existing := by injection heq
      split
      · rw [(mapSet_keys_of_get_some hg _).2]
        omega
      · omega

theorem foldl_dedupe_length (now : Nat) (bs : List Bookmark) :
    ∀ m : List (String × Bookmark),
      (bs.foldl (dedupeStep now) m).length ≤ m.length + bs.length := by
  induction bs with
  | nil => intro m; simp
  | cons b bs ih =>
    intro m
    have h1 := ih (dedupeStep now m b)
    have h2 := dedupeStep_length now m b
    simp only [List.foldl_cons]
    calc (bs.foldl (dedupeStep now) (dedupeStep now m b)).length
        ≤ (dedupeStep now m b).length + bs.length := h1
      _ ≤ m.length + 1 + bs.length := by omega
      _ = m.length + (b :: bs).length := by simp; omega

/-- The invariant of the url-keyed map: keys are pairwise distinct and every
stored record's `url` field equals its key. -/
def mapKeysInv (m : List (String × Bookmark)) : Prop :=
  (m.map Prod.fst).Nodup ∧ ∀ pr ∈ m, pr.2.url = pr.1

theorem dedupeStep_inv (now : Nat) {m : List (String × Bookmark)}
    (hm : mapKeysInv m) (b : Bookmark) : mapKeysInv (dedupeStep now m b) := by
  unfold dedupeStep
  simp only []
  cases hg : mapGet m (canonKey b.url) with
  | none =>
    rw [mapSet_of_get_none hg]
    constructor
    · simp only [List.map_append, List.map_cons, List.map_nil]
      simp [List.nodup_append, hm.1, mapGet_none_not_mem hg]
    · intro pr hpr
      rcases List.mem_append.mp hpr with hpr | hpr
      · exact hm.2 pr hpr
      · simp only [List.mem_singleton] at hpr
        subst hpr
        rfl
  | some w =>
    split
    · rename_i heq
      exact absurd heq (by simp)
    · rename_i existing heq
      split
      · constructor
        · rw [(mapSet_keys_of_get_some hg _).1]
          exact hm.1
        · intro pr hpr
          rcases mapSet_mem hpr with rfl | hpr
          · rfl
          · exact hm.2 pr hpr
      · exact hm

theorem foldl_dedupe_inv (now : Nat) (bs : List Bookmark) :
    ∀ m : List (String × Bookmark), mapKeysInv m →
      mapKeysInv (bs.foldl (dedupeStep now) m) := by
  induction bs with
  | nil => intro m hm; exact hm
  | cons b bs ih =>
    intro m hm
    exact ih _ (dedupeStep_inv now hm b)

/-- The stored `url` fields of the dedupe output are pairwise distinct (they
are the distinct map keys). -/
theorem dedupe_urls_nodup (now : Nat) (bs : List Bookmark) :
    ((dedupeBookmarks now bs).map Bookmark.url).Nodup := by
  unfold dedupeBookmarks
  have hinv := foldl_dedupe_inv now bs [] ⟨List.nodup_nil, by simp⟩
  rw [List.map_map]
  have : (bs.foldl (dedupeStep now) []).map (Bookmark.url ∘ Prod.snd) =
      (bs.foldl (dedupeStep now) []).map Prod.fst :=
    List.map_congr_left (fun pr hpr => hinv.2 pr hpr)
  rw [this]
  exact hinv.1

theorem dedupe_length (now : Nat) (bs : List Bookmark) :
    (dedupeBookmarks now bs).length ≤ bs.length := by
  unfold dedupeBookmarks
  rw [List.length_map]
  have := foldl_dedupe_length now bs []
  simpa using this

theorem dedupeStep_mem {now : Nat} {m : List (String × Bookmark)}
    {b : Bookmark} {pr : String × Bookmark} (h : pr ∈ dedupeStep now m b) :
    pr = (canonKey b.url, finalizeBookmark now (canonKey b.url) b) ∨
      pr ∈ m := by
  unfold dedupeStep at h
  simp only [] at h
  revert h
  cases hg : mapGet m (canonKey b.url) with
  | none =>
    intro h
    rw [mapSet_of_get_none hg] at h
    rcases List.mem_append.mp h with h | h
    · exact Or.inr h
    · simp only [List.mem_singleton] at h
      exact Or.inl h
  | some w =>
    intro h
    split at h
    · exact mapSet_mem h
    · split at h
      · exact mapSet_mem h
      · exact Or.inr h

/-- Every entry of the folded map arises from some input record, as its
canonical key paired with its finalization. -/
theorem foldl_dedupe_sound (now : Nat) (bs : List Bookmark) :
    ∀ m : List (String × Bookmark),
      ∀ pr ∈ bs.foldl (dedupeStep now) m,
        (∃ b ∈ bs, pr = (canonKey b.url,
          finalizeBookmark now (canonKey b.url) b)) ∨ pr ∈ m := by
  induction bs with
  | nil => intro m pr h; exact Or.inr h
  | cons b bs ih =>
    intro m pr h
    simp only [List.foldl_cons] at h
    rcases ih (dedupeStep now m b) pr h with ⟨b', hb', heq⟩ | hmem
    · exact Or.inl ⟨b', by simp [hb'], heq⟩
    · rcases dedupeStep_mem hmem with heq | hmem2
      · exact Or.inl ⟨b, by simp, heq⟩
      · exact Or.inr hmem2

/-- Every output record of `dedupeBookmarks` is the finalization of some
input record at its canonical key. -/
theorem dedupe_sound {now : Nat} {bs : List Bookmark} {out : Bookmark}
    (h : out ∈ dedupeBookmarks now bs) :
    ∃ b ∈ bs, out = finalizeBookmark now (canonKey b.url) b := by
  unfold dedupeBookmarks at h
  rw [List.mem_map] at h
  obtain ⟨pr, hpr, rfl⟩ := h
  rcases foldl_dedupe_sound now bs [] pr hpr with ⟨b, hb, heq⟩ | hmem
  · refine ⟨b, hb, ?_⟩
    rw [heq]
  · simp at hmem

/-- Evaluation of `dedupeBookmarks` on a two-element colliding input: the
first record is stored finalized; the second record replaces it exactly when
`preferIncoming` holds against the stored (finalized) first record. -/
theorem dedupe_pair (now : Nat) (b1 b2 : Bookmark)
    (hk : canonKey b2.url = canonKey b1.url) :
    dedupeBookmarks now [b1, b2] =
      if preferIncoming (finalizeBookmark now (canonKey b1.url) b1) b2 = true
      then [finalizeBookmark now (canonKey b1.url) b2]
      else [finalizeBookmark now (canonKey b1.url) b1] := by
  unfold dedupeBookmarks dedupeStep
  simp only [List.foldl_cons, List.foldl_nil, hk]
  simp [mapGet, mapSet]
  split <;> rfl

/-! ## Metadata extraction (the unnamed metadata utilities module) -/

/-- Case-insensitive literal match (the `/i` flag): consume `lit` from the
front of `cs`, comparing ASCII-case-insensitively. -/
def litCi : List Char → List Char → Option (List Char)
  | [], cs => some cs
  | _ :: _, [] => none
  | p :: ps, c :: cs => if c.toLower = p.toLower then litCi ps cs else none

/-- The regex class `[\"']`: either quote character. -/
def isQuoteChar (c : Char) : Bool :=
  c = Char.ofNat 34 ∨ c = Char.ofNat 39

def quoteAt : List Char → Option (List Char)
  | c :: cs => if isQuoteChar c then some cs else none
  | [] => none

/-- `[\"']([^\"']*)[\"']`: an opening quote, a capture of non-quote
characters (greedy, necessarily up to the next quote of either kind), and a
closing quote. -/
def captureQuoted (cs : List Char) : Option String :=
  match quoteAt cs with
  | none => none
  | some rest =>
    match rest.dropWhile (fun c => ¬ isQuoteChar c) with
    | [] => none
    | _ :: _ => some ⟨rest.takeWhile (fun c => ¬ isQuoteChar c)⟩

/-- `content=[\"']([^\"']*)[\"']`. -/
def contentInner (cs : List Char) : Option String :=
  match litCi "content=".data cs with
  | none => none
  | some rest => captureQuoted rest

/-- Backtracking for `[^>]*`: try the gap lengths from `g` down to `0`
(greedy — the regex engine tries the longest run first). -/
def goGap (inner : List Char → Option String) (cs : List Char) :
    Nat → Option String
  | 0 => inner cs
  | g + 1 =>
    match inner (cs.drop (g + 1)) with
    | some r => some r
    | none => goGap inner cs g

/-- `[^>]*` followed by `inner`: the maximal run of non-`>` characters bounds
the gap. -/
def greedyGap (inner : List Char → Option String) (cs : List Char) :
    Option String :=
  goGap inner cs (cs.takeWhile (fun c => ¬ c = '>')).length

/-- After `<meta`: `[^>]*ATTR=[\"']VAL[\"'][^>]*content=[\"']([^\"']*)[\"']`
with the attribute/value pair fixed by the caller. -/
def metaInner (attr val : List Char) (cs : List Char) : Option String :=
  match litCi (attr ++ ['=']) cs with
  | none => none
  | some r1 =>
    match quoteAt r1 with
    | none => none
    | some r2 =>
      match litCi val r2 with
      | none => none
      | some r3 =>
        match quoteAt r3 with
        | none => none
        | some r4 => greedyGap contentInner r4

/-- Leftmost match of
`<meta[^>]*ATTR=[\"']VAL[\"'][^>]*content=[\"']([^\"']*)[\"']/i`,
returning the capture group. -/
def scanMeta (attr val : List Char) : List Char → Option String
  | [] => none
  | c :: cs =>
    match (match litCi "<meta".data (c :: cs) with
           | none => none
           | some rest => greedyGap (metaInner attr val) rest) with
    | some v => some v
    | none => scanMeta attr val cs

/-- After `<title` and the `[^>]*` gap: `>([^<]*)</title>`. -/
def titleInner (cs : List Char) : Option String :=
  match cs with
  | '>' :: rest =>
    match litCi "</title>".data (rest.dropWhile (fun c => ¬ c = '<')) with
    | some _ => some ⟨rest.takeWhile (fun c => ¬ c = '<')⟩
    | none => none
  | _ => none

/-- Leftmost match of `<title[^>]*>([^<]*)<\/title>/i`. -/
def scanTitleTag : List Char → Option String
  | [] => none
  | c :: cs =>
    match (match litCi "<title".data (c :: cs) with
           | none => none
           | some rest => greedyGap titleInner rest) with
    | some v => some v
    | none => scanTitleTag cs

/-- The fixed entity table of `decodeHtmlEntities`. -/
def entityTable (m : String) : Option String :=
  if m = "&amp;" then some "&"
  else if m = "&lt;" then some "<"
  else if m = "&gt;" then some ">"
  else if m = "&quot;" then some (String.mk [Char.ofNat 34])
  else if m = "&#39;" then some (String.mk [Char.ofNat 39])
  else if m = "&apos;" then some (String.mk [Char.ofNat 39])
  else none

theorem length_dropWhile_le (p : Char → Bool) (l : List Char) :
    (l.dropWhile p).length ≤ l.length :=
  (List.dropWhile_sublist p).length_le

/-- `text.replace(/&[^;]+;/g, match => entities[match] || match)`: scan left
to right; at each `&`, the candidate entity runs to the first following `;`
(at least one character between); a table hit is replaced, a miss is kept
verbatim, and scanning resumes after the `;`.  The recursion is bounded by a
fuel argument so that it is structural (kernel-reducible); every step
consumes at least one character, so `fuel = length` never runs out: the
`fuel = 0` branch with a non-empty list is unreachable from
`decodeHtmlEntities`. -/
def decodeScan : Nat → List Char → List Char
  | _, [] => []
  | 0, cs => cs
  | fuel + 1, c :: rest =>
    if c = '&' then
      match rest.dropWhile (fun d => ¬ d = ';') with
      | ';' :: after =>
        if rest.takeWhile (fun d => ¬ d = ';') = [] then
          '&' :: decodeScan fuel rest
        else
          (match entityTable
              ⟨'&' :: (rest.takeWhile (fun d => ¬ d = ';') ++ [';'])⟩ with
            | some rep => rep.data
            | none =>
              '&' :: (rest.takeWhile (fun d => ¬ d = ';') ++ [';'])) ++
            decodeScan fuel after
      | _ => c :: decodeScan fuel rest
    else c :: decodeScan fuel rest

def decodeHtmlEntities (text : String) : String :=
  ⟨decodeScan text.data.length text.data⟩

/-- `urlObj.hostname.replace('www.', '')`: remove the FIRST occurrence of the
substring `www.` anywhere in the hostname (string-argument `replace`
replaces one occurrence, not only a leading one). -/
def removeFirstSub (pat : List Char) : List Char → List Char
  | [] => []
  | c :: cs =>
    if pat.isPrefixOf (c :: cs) then (c :: cs).drop pat.length
    else c :: removeFirstSub pat cs

def removeFirstWww (h : String) : String :=
  ⟨removeFirstSub "www.".data h.data⟩

/-- Treat an empty regex capture as no match: the source tests
`match && match[1]`, and an empty string is falsy. -/
def nonEmptyOpt : Option String → Option String
  | some v => if v = "" then none else some v
  | none => none

/-- Embedding of `extractTitle`: og:title, then twitter:title, then the
`<title>` element, then the hostname of `url` with the first `www.` removed,
then the literal `"Untitled"` when `url` does not parse. -/
def extractTitle (html url : String) : String :=
  match nonEmptyOpt (scanMeta "property".data "og:title".data html.data) with
  | some t => decodeHtmlEntities t
  | none =>
    match nonEmptyOpt
        (scanMeta "name".data "twitter:title".data html.data) with
    | some t => decodeHtmlEntities t
    | none =>
      match nonEmptyOpt (scanTitleTag html.data) with
      | some t => decodeHtmlEntities t
      | none =>
        match URL.parse url with
        | some urlObj => removeFirstWww urlObj.host
        | none => "Untitled"

/-- Embedding of `resolveUrl` (the unnamed metadata module): branch on
`startsWith('http')`, then `'//'`, then `'/'`, else `base + "/" + href`; the
enclosing `try` never throws, so the `catch` is dead. -/
def resolveUrl (href base : String) : String :=
  if strStarts href "http" then href
  else if strStarts href "//" then "https:" ++ href
  else if strStarts href "/" then base ++ href
  else base ++ "/" ++ href

/-! ## Search (src/lib/utils/index.ts `searchBookmarks`) -/

def isLowerAlnum (c : Char) : Bool :=
  (97 ≤ c.toNat ∧ c.toNat ≤ 122) ∨ (48 ≤ c.toNat ∧ c.toNat ≤ 57)

/-- `.replace(/[^a-z0-9]+/g, " ")`: each maximal run of non-alphanumeric
characters becomes a single space. -/
def collapseRuns : List Char → List Char
  | [] => []
  | c :: cs =>
    if isLowerAlnum c then c :: collapseRuns cs
    else ' ' :: collapseRuns (cs.dropWhile (fun d => ¬ isLowerAlnum d))
  termination_by l => l.length
  decreasing_by
  all_goals simp_wf
  all_goals try omega
  all_goals
    (have h1 := length_dropWhile_le (fun d => !(isLowerAlnum d)) cs
     omega)

/-- Embedding of `normalizeSearchText`: lowercase (ASCII `toLower`; the NFD
normalization and combining-mark removal of the source are identities on the
ASCII inputs considered here), collapse non-alphanumeric runs to single
spaces, trim. -/
def normalizeSearchText (value : String) : String :=
  jsTrim ⟨collapseRuns (value.data.map Char.toLower)⟩

/-- `.split(/\s+/).filter(Boolean)` on normalized text (whose only
whitespace is single spaces). -/
def splitTokens (s : String) : List String :=
  ((splitOn1 ' ' s.data).filter (fun t => ¬ t = [])).map
    (fun t => (⟨t⟩ : String))

/-- JS `String.prototype.includes`. -/
def containsSubstr (needle : List Char) : List Char → Bool
  | [] => needle.isPrefixOf []
  | c :: t => needle.isPrefixOf (c :: t) || containsSubstr needle t

def matchesTokens (text : String) (tokens : List String) : Bool :=
  tokens.all (fun token => containsSubstr token.data text.data)

def lowerStr (s : String) : String :=
  ⟨s.data.map Char.toLower⟩

/-- `.replace(/^#+/, "").replace(/^tag:/i, "")`. -/
def dropTagMarkers (s : String) : String :=
  let afterHash := s.data.dropWhile (fun c => c = '#')
  ⟨if ((afterHash.take 4).map Char.toLower) = "tag:".data then
      afterHash.drop 4
    else afterHash⟩

def joinSpace (ls : List String) : String :=
  String.intercalate " " ls

/-- `.replace(/\s+/g, "")`. -/
def removeWs (s : String) : String :=
  ⟨s.data.filter (fun c => !(isJsWs c))⟩

/-- Embedding of `searchBookmarks`. -/
def searchBookmarks (bookmarks : List Bookmark) (query : String) :
    List Bookmark :=
  let trimmedQuery := jsTrim query
  if trimmedQuery = "" then bookmarks
  else
    let tagOnly : Bool :=
      strStarts trimmedQuery "#" || strStarts (lowerStr trimmedQuery) "tag:"
    let rawTagQuery :=
      if tagOnly then jsTrim (dropTagMarkers trimmedQuery) else trimmedQuery
    let tokens := splitTokens (normalizeSearchText rawTagQuery)
    if tokens = [] then
      if !tagOnly then bookmarks
      else bookmarks.filter (fun bookmark =>
        -- `(bookmark.tags ?? []).length > 0`: `tags` is a required array,
        -- so the `??` fallback is an identity
        bookmark.tags.length > 0)
    else
      bookmarks.filter (fun bookmark =>
        let title := normalizeSearchText bookmark.title
        let url := normalizeSearchText bookmark.url
        -- `bookmark.description || ""`: on the required string field this
        -- maps only the empty string to itself, an identity
        let description := normalizeSearchText bookmark.description
        let tagsText := joinSpace (bookmark.tags.map
          (fun tag => normalizeSearchText tag))
        if tagOnly then matchesTokens tagsText tokens
        else
          let combined := joinSpace [title, url, description, tagsText]
          if matchesTokens combined tokens then true
          else if tokens.length = 1 then
            let compactToken := removeWs (tokens.headD "")
            if compactToken = "" then false
            else containsSubstr compactToken.data (removeWs combined).data
          else false)

/-! ## Claim theorems -/

theorem trim_ne_of_parse {s : String} {u : UrlObj}
    (hp : URL.parse (withHttps (jsTrim s)) = some u) : ¬ jsTrim s = "" := by
  intro h
  rw [h] at hp
  have hnone : URL.parse (withHttps "") = none := by decide
  rw [hnone] at hp
  cases hp

theorem preferIncoming_default_nondefault {e i : Bookmark}
    (he : e.collectionId = "default") (hi : ¬ i.collectionId = "default") :
    preferIncoming e i = true := by
  unfold preferIncoming
  simp [he, hi]

theorem preferIncoming_nondefault_default {e i : Bookmark}
    (he : ¬ e.collectionId = "default") (hi : i.collectionId = "default") :
    preferIncoming e i = false := by
  unfold preferIncoming
  simp [he, hi]

theorem preferIncoming_same_def {e i : Bookmark}
    (h : e.collectionId = "default" ↔ i.collectionId = "default") :
    preferIncoming e i =
      decide (i.updatedAt > e.updatedAt) := by
  unfold preferIncoming
  by_cases he : e.collectionId = "default"
  · have hi := h.mp he
    simp [he, hi]
  · have hi : ¬ i.collectionId = "default" := fun hh => he (h.mpr hh)
    simp [he, hi]

/-- C1, counterexample: the claim's instance equates
`canonicalize("http://www.example.com/page/?ref=abc&utm_source=x#frag")`
and `canonicalize("https://example.com/page")`, but the canonicalization
preserves the scheme, so the two sides are `http://example.com/page` and
`https://example.com/page`. -/
theorem claim_C1_counterexample :
    ¬ (canonKey "http://www.example.com/page/?ref=abc&utm_source=x#frag" =
      canonKey "https://example.com/page") := by decide

/-- C1 (amended): for every pair of parseable URL strings whose parses have
the same scheme and differ only by a single `www.` host prefix (on a base
host not itself `www.`-prefixed), one trailing slash (on a path not
otherwise slash-terminated), the fragment, or `ref`/`utm_*` query
parameters, `canonicalize` (`normalizeCompareUrl` after `stripRefParam`)
returns identical output; and the claim's example holds once both sides use
the same scheme. -/
theorem claim_C1 :
    (∀ (s t : String) (u v : UrlObj),
      URL.parse (withHttps (jsTrim s)) = some u →
      URL.parse (withHttps (jsTrim t)) = some v →
      urlsRel u v → canonKey s = canonKey t) ∧
    canonKey "https://www.example.com/page/?ref=abc&utm_source=x#frag" =
      canonKey "https://example.com/page" := by
  constructor
  · intro s t u v hps hpt hrel
    rw [canonKey_of_parse (trim_ne_of_parse hps) hps,
      canonKey_of_parse (trim_ne_of_parse hpt) hpt,
      canonFn_eq_of_rel (parse_wf hps) (parse_wf hpt) hrel]
  · decide

/-- Witness for C1 at a concrete related pair. -/
theorem claim_C1_witness :
    canonKey "https://www.foo.com/a/" = canonKey "https://foo.com/a" :=
  claim_C1.1 "https://www.foo.com/a/" "https://foo.com/a"
    ⟨"https", "www.foo.com", "/a/", [], none⟩
    ⟨"https", "foo.com", "/a", [], none⟩
    (by decide) (by decide)
    (by unfold urlsRel hostRel pathRel filteredQuery; decide)

/-- C2: on a colliding pair, a non-default incoming record beats a default
stored record regardless of timestamps, and a default incoming record never
displaces a non-default stored one; with equal default-ness the incoming
record wins exactly when its `updatedAt` is strictly greater (the claim's
"missing treated as 0" matches the source's `?? 0` fallbacks, which never
fire on the declared interface's required `updatedAt`), so exact ties keep
the first-seen record; and the claim's concrete example keeps the "work"
record. -/
theorem claim_C2 :
    (∀ (now : Nat) (b1 b2 : Bookmark),
      canonKey b1.url = canonKey b2.url →
      b1.collectionId = "default" → ¬ b2.collectionId = "default" →
      dedupeBookmarks now [b1, b2] =
        [finalizeBookmark now (canonKey b1.url) b2]) ∧
    (∀ (now : Nat) (b1 b2 : Bookmark),
      canonKey b1.url = canonKey b2.url →
      ¬ b1.collectionId = "default" → b2.collectionId = "default" →
      dedupeBookmarks now [b1, b2] =
        [finalizeBookmark now (canonKey b1.url) b1]) ∧
    (∀ (now : Nat) (b1 b2 : Bookmark),
      canonKey b1.url = canonKey b2.url →
      (b1.collectionId = "default" ↔ b2.collectionId = "default") →
      dedupeBookmarks now [b1, b2] =
        [finalizeBookmark now (canonKey b1.url)
          (if b2.updatedAt > b1.updatedAt then b2 else b1)]) ∧
    dedupeBookmarks 99
      [⟨"1", "http://a.com", "t1", "", none, none, [], "default", 1, 1⟩,
       ⟨"2", "http://a.com/", "t2", "", none, none, [], "work", 1, 1⟩] =
      [⟨"2", "http://a.com/", "t2", "", none, none, [], "work", 1, 1⟩] := by
  refine ⟨?_, ?_, ?_, by decide⟩
  · intro now b1 b2 hk h1 h2
    rw [dedupe_pair now b1 b2 hk.symm,
      if_pos (preferIncoming_default_nondefault
        (e := finalizeBookmark now (canonKey b1.url) b1) h1 h2)]
  · intro now b1 b2 hk h1 h2
    rw [dedupe_pair now b1 b2 hk.symm,
      preferIncoming_nondefault_default
        (e := finalizeBookmark now (canonKey b1.url) b1) h1 h2]
    simp
  · intro now b1 b2 hk hiff
    rw [dedupe_pair now b1 b2 hk.symm,
      preferIncoming_same_def
        (e := finalizeBookmark now (canonKey b1.url) b1) hiff]
    rw [show (finalizeBookmark now (canonKey b1.url) b1).updatedAt =
      b1.updatedAt from rfl]
    by_cases hcmp : b2.updatedAt > b1.updatedAt <;> simp [hcmp]

/-- Witness for C2 at a concrete colliding pair (default vs non-default,
where the default record even has the larger timestamp). -/
theorem claim_C2_witness :
    dedupeBookmarks 7
      [⟨"a", "http://a.com", "t", "", none, none, [], "default", 0, 3⟩,
       ⟨"b", "http://a.com/", "t", "", none, none, [], "work", 0, 1⟩] =
      [finalizeBookmark 7
        (canonKey (Bookmark.url ⟨"a", "http://a.com", "t", "", none, none,
          [], "default", 0, 3⟩))
        ⟨"b", "http://a.com/", "t", "", none, none, [], "work", 0, 1⟩] :=
  claim_C2.1 7
    ⟨"a", "http://a.com", "t", "", none, none, [], "default", 0, 3⟩
    ⟨"b", "http://a.com/", "t", "", none, none, [], "work", 0, 1⟩
    (by decide) (by decide) (by decide)

/-- C3, counterexample: a host with a repeated `www.www.` prefix is stripped
once per canonicalization, so `canonicalize` is not idempotent on it. -/
theorem claim_C3_counterexample :
    ¬ (normalizeCompareUrl
        (normalizeCompareUrl "https://www.www.example.com/") =
      normalizeCompareUrl "https://www.www.example.com/") := by decide

/-- C3 (amended): `canonicalize` (`normalizeCompareUrl`) is idempotent on
every unparsable string, and on every parseable URL whose hostname does not
begin with `www.www.` and whose path does not end in `//`. -/
theorem claim_C3 :
    (∀ (s : String) (u : UrlObj),
      URL.parse (withHttps (jsTrim s)) = some u →
      strStarts u.host "www.www." = false → endsTwoSlash u.path = false →
      normalizeCompareUrl (normalizeCompareUrl s) =
        normalizeCompareUrl s) ∧
    (∀ s : String, URL.parse (withHttps (jsTrim s)) = none →
      normalizeCompareUrl (normalizeCompareUrl s) =
        normalizeCompareUrl s) := by
  constructor
  · intro s u hp hh hpa
    exact normalizeCompareUrl_idem_of_parse (trim_ne_of_parse hp) hp hh hpa
  · intro s hp
    exact normalizeCompareUrl_idem_of_fail hp

/-- Witness for C3 at a concrete parseable URL. -/
theorem claim_C3_witness :
    normalizeCompareUrl (normalizeCompareUrl "https://www.example.com/a/") =
      normalizeCompareUrl "https://www.example.com/a/" :=
  claim_C3.1 "https://www.example.com/a/"
    ⟨"https", "www.example.com", "/a/", [], none⟩
    (by decide) (by decide) (by decide)

/-- C4, counterexample: two records whose urls are `https://www.www.x.com/`
and `https://www.x.com/` get distinct map keys (`https://www.x.com/` and
`https://x.com/`), so both survive; but canonicalizing their stored urls
again sends both to `https://x.com/` — two output records with the same
canonical key. -/
theorem claim_C4_counterexample :
    (dedupeBookmarks 0
      [⟨"1", "https://www.www.x.com/", "t1", "", none, none, [], "c",
        0, 0⟩,
       ⟨"2", "https://www.x.com/", "t2", "", none, none, [], "c",
        0, 0⟩]).map
        (fun b => normalizeCompareUrl (stripRefParam b.url)) =
      ["https://x.com/", "https://x.com/"] ∧
    (dedupeBookmarks 0
      [⟨"1", "https://www.www.x.com/", "t1", "", none, none, [], "c",
        0, 0⟩,
       ⟨"2", "https://www.x.com/", "t2", "", none, none, [], "c",
        0, 0⟩]).length = 2 := by decide

/-- C4 (amended): `dedupeBookmarks` returns at most as many records as it
was given, and the stored `url` values of its output (the canonical map
keys) are pairwise distinct — though re-canonicalizing a stored url can
still collide, as the counterexample shows. -/
theorem claim_C4 (now : Nat) (bs : List Bookmark) :
    (dedupeBookmarks now bs).length ≤ bs.length ∧
      ((dedupeBookmarks now bs).map Bookmark.url).Nodup :=
  ⟨dedupe_length now bs, dedupe_urls_nodup now bs⟩

/-- C5, counterexample: on a non-empty unparsable input with surrounding
whitespace, the fallback key is the original untrimmed string, not the
trimmed one the claim specifies. -/
theorem claim_C5_counterexample :
    normalizeCompareUrl " http://bad host " = " http://bad host " ∧
      ¬ normalizeCompareUrl " http://bad host " =
        jsTrim " http://bad host " := by decide

/-- C5 (amended): `canonicalize` and `stripRefParam` are total (the model
cannot throw), and for every input whose trimmed form is non-empty and
fails URL parsing they return the original input string unchanged — the
untrimmed original, not the trimmed form. -/
theorem claim_C5 (s : String) (ht : ¬ jsTrim s = "")
    (hp : URL.parse (withHttps (jsTrim s)) = none) :
    stripRefParam s = s ∧ normalizeCompareUrl s = s ∧ canonKey s = s :=
  ⟨stripRefParam_of_fail hp, normalizeCompareUrl_of_fail hp,
    canonKey_of_fail hp⟩

/-- Witness for C5 at a concrete unparsable input. -/
theorem claim_C5_witness :
    stripRefParam " http://bad host " = " http://bad host " ∧
      normalizeCompareUrl " http://bad host " = " http://bad host " ∧
      canonKey " http://bad host " = " http://bad host " :=
  claim_C5 " http://bad host " (by decide) (by decide)

/-- C6, counterexample: with no matching pattern in the HTML, the fallback
is `hostname.replace('www.', '')`, which removes the FIRST occurrence of
`www.` anywhere, not only a leading one: for hostname `x.www.com` the code
returns `x.com`, not the claim's `x.www.com`. -/
theorem claim_C6_counterexample :
    extractTitle "" "https://x.www.com/" = "x.com" ∧
      ¬ extractTitle "" "https://x.www.com/" = "x.www.com" := by decide

/-- C6 (amended): when no og:title, twitter:title or `<title>` pattern
yields a non-empty capture, `extractTitle` returns the hostname of `url`
with the first occurrence of `www.` removed (anywhere in the hostname), and
the literal `"Untitled"` when `url` is unparsable; a successful non-empty
og:title capture is returned through the fixed entity decoding, which
rewrites exactly `&amp; &lt; &gt; &quot; &#39; &apos;` and leaves
unrecognized entities as they are. -/
theorem claim_C6 :
    (∀ (html url : String) (u : UrlObj),
      nonEmptyOpt (scanMeta "property".data "og:title".data html.data) =
        none →
      nonEmptyOpt (scanMeta "name".data "twitter:title".data html.data) =
        none →
      nonEmptyOpt (scanTitleTag html.data) = none →
      URL.parse url = some u →
      extractTitle html url = removeFirstWww u.host) ∧
    (∀ html url : String,
      nonEmptyOpt (scanMeta "property".data "og:title".data html.data) =
        none →
      nonEmptyOpt (scanMeta "name".data "twitter:title".data html.data) =
        none →
      nonEmptyOpt (scanTitleTag html.data) = none →
      URL.parse url = none → extractTitle html url = "Untitled") ∧
    (∀ (html url t : String),
      nonEmptyOpt (scanMeta "property".data "og:title".data html.data) =
        some t →
      extractTitle html url = decodeHtmlEntities t) ∧
    (decodeHtmlEntities "&amp;" = "&" ∧ decodeHtmlEntities "&lt;" = "<" ∧
      decodeHtmlEntities "&gt;" = ">" ∧
      decodeHtmlEntities "&quot;" = String.mk [Char.ofNat 34] ∧
      decodeHtmlEntities "&#39;" = String.mk [Char.ofNat 39] ∧
      decodeHtmlEntities "&apos;" = String.mk [Char.ofNat 39] ∧
      decodeHtmlEntities "&foo;" = "&foo;" ∧
      decodeHtmlEntities "Hello &amp; World" = "Hello & World") := by
  refine ⟨?_, ?_, ?_, by decide⟩
  · intro html url u hog htw hti hu
    unfold extractTitle
    simp only [hog, htw, hti, hu]
  · intro html url hog htw hti hu
    unfold extractTitle
    simp only [hog, htw, hti, hu]
  · intro html url t hog
    unfold extractTitle
    simp only [hog]

/-- Witness for C6: the hostname fallback on pattern-free HTML, and the
decoded og:title path. -/
theorem claim_C6_witness :
    extractTitle "<html><head></head></html>" "https://sub.example.com" =
      removeFirstWww
        (UrlObj.host ⟨"https", "sub.example.com", "/", [], none⟩) ∧
    extractTitle
      "<meta property=\"og:title\" content=\"Hello &amp; World\">"
      "https://x.com" = decodeHtmlEntities "Hello &amp; World" :=
  ⟨claim_C6.1 "<html><head></head></html>" "https://sub.example.com"
      ⟨"https", "sub.example.com", "/", [], none⟩
      (by decide) (by decide) (by decide) (by decide),
    claim_C6.2.2.1
      "<meta property=\"og:title\" content=\"Hello &amp; World\">"
      "https://x.com" "Hello &amp; World" (by decide)⟩

/-- C7, counterexample: `resolveUrl` tests `startsWith('http')`, not "has a
scheme": an `ftp:` href (which has a scheme) is not returned unchanged but
glued onto the origin. -/
theorem claim_C7_counterexample :
    resolveUrl "ftp://files.example.com/f" "https://x.com" =
      "https://x.com/ftp://files.example.com/f" ∧
    ¬ resolveUrl "ftp://files.example.com/f" "https://x.com" =
      "ftp://files.example.com/f" := by decide

/-- C7 (amended): `resolveUrl` returns `href` unchanged exactly when it
starts with the literal `http` (not when it "has a scheme"); otherwise it
prefixes `https:` for `//`, the origin for `/`, and `origin + "/"` for
everything else, in that branch order. -/
theorem claim_C7 (href base : String) :
    (strStarts href "http" = true → resolveUrl href base = href) ∧
    (strStarts href "http" = false → strStarts href "//" = true →
      resolveUrl href base = "https:" ++ href) ∧
    (strStarts href "http" = false → strStarts href "//" = false →
      strStarts href "/" = true → resolveUrl href base = base ++ href) ∧
    (strStarts href "http" = false → strStarts href "//" = false →
      strStarts href "/" = false →
      resolveUrl href base = base ++ "/" ++ href) := by
  refine ⟨?_, ?_, ?_, ?_⟩
  · intro h1
    unfold resolveUrl
    simp [h1]
  · intro h1 h2
    unfold resolveUrl
    simp [h1, h2]
  · intro h1 h2 h3
    unfold resolveUrl
    simp [h1, h2, h3]
  · intro h1 h2 h3
    unfold resolveUrl
    simp [h1, h2, h3]

/-- Witness for C7: all four branches at concrete inputs. -/
theorem claim_C7_witness :
    resolveUrl "http://a.com/f" "https://x.com" = "http://a.com/f" ∧
      resolveUrl "//cdn.x.com/i.png" "https://x.com" =
        "https:" ++ "//cdn.x.com/i.png" ∧
      resolveUrl "/icon.png" "https://x.com" =
        "https://x.com" ++ "/icon.png" ∧
      resolveUrl "img/icon.png" "https://x.com" =
        "https://x.com" ++ "/" ++ "img/icon.png" :=
  ⟨(claim_C7 "http://a.com/f" "https://x.com").1 (by decide),
    (claim_C7 "//cdn.x.com/i.png" "https://x.com").2.1 (by decide)
      (by decide),
    (claim_C7 "/icon.png" "https://x.com").2.2.1 (by decide) (by decide)
      (by decide),
    (claim_C7 "img/icon.png" "https://x.com").2.2.2 (by decide) (by decide)
      (by decide)⟩

/-- C8: every record returned by `dedupeBookmarks` comes from a winning
input record, equal to it in `id`, `title`, `description`, `icon`, `image`,
`tags` and `collectionId`; only `url` is rewritten to the canonical key,
and `createdAt`/`updatedAt` are carried over from the winner (the source's
`?? now` fallbacks would substitute the call-time clock only when those
fields were absent, which the declared interface rules out, so the
timestamps are in fact never replaced). -/
theorem claim_C8 (now : Nat) (bs : List Bookmark) (out : Bookmark)
    (h : out ∈ dedupeBookmarks now bs) :
    ∃ b ∈ bs, out.id = b.id ∧ out.title = b.title ∧
      out.description = b.description ∧ out.icon = b.icon ∧
      out.image = b.image ∧ out.tags = b.tags ∧
      out.collectionId = b.collectionId ∧ out.url = canonKey b.url ∧
      out.updatedAt = b.updatedAt ∧ out.createdAt = b.createdAt := by
  obtain ⟨b, hb, hout⟩ := dedupe_sound h
  refine ⟨b, hb, ?_, ?_, ?_, ?_, ?_, ?_, ?_, ?_, ?_, ?_⟩ <;>
    rw [hout] <;> rfl

/-- Witness for C8 on a singleton input. -/
theorem claim_C8_witness :
    ∃ b ∈ [(⟨"i", "http://a.com", "t", "d", none, none, ["x"],
        "work", 9, 2⟩ : Bookmark)],
      (⟨"i", "http://a.com/", "t", "d", none, none, ["x"],
        "work", 9, 2⟩ : Bookmark).id = b.id ∧
      (⟨"i", "http://a.com/", "t", "d", none, none, ["x"],
        "work", 9, 2⟩ : Bookmark).title = b.title ∧
      (⟨"i", "http://a.com/", "t", "d", none, none, ["x"],
        "work", 9, 2⟩ : Bookmark).description = b.description ∧
      (⟨"i", "http://a.com/", "t", "d", none, none, ["x"],
        "work", 9, 2⟩ : Bookmark).icon = b.icon ∧
      (⟨"i", "http://a.com/", "t", "d", none, none, ["x"],
        "work", 9, 2⟩ : Bookmark).image = b.image ∧
      (⟨"i", "http://a.com/", "t", "d", none, none, ["x"],
        "work", 9, 2⟩ : Bookmark).tags = b.tags ∧
      (⟨"i", "http://a.com/", "t", "d", none, none, ["x"],
        "work", 9, 2⟩ : Bookmark).collectionId = b.collectionId ∧
      (⟨"i", "http://a.com/", "t", "d", none, none, ["x"],
        "work", 9, 2⟩ : Bookmark).url = canonKey b.url ∧
      (⟨"i", "http://a.com/", "t", "d", none, none, ["x"],
        "work", 9, 2⟩ : Bookmark).updatedAt = b.updatedAt ∧
      (⟨"i", "http://a.com/", "t", "d", none, none, ["x"],
        "work", 9, 2⟩ : Bookmark).createdAt = b.createdAt :=
  claim_C8 5
    [⟨"i", "http://a.com", "t", "d", none, none, ["x"], "work", 9, 2⟩]
    ⟨"i", "http://a.com/", "t", "d", none, none, ["x"], "work", 9, 2⟩
    (by decide)

/-- C9: `stripRefParam` is idempotent on every input string, including
empty, whitespace-only and unparsable ones. -/
theorem claim_C9 (s : String) :
    stripRefParam (stripRefParam s) = stripRefParam s :=
  stripRefParam_idem s

/-- C10: a query that is empty or trims to empty returns the input list
unchanged, same records in the same order. -/
theorem claim_C10 (bs : List Bookmark) (q : String) (h : jsTrim q = "") :
    searchBookmarks bs q = bs := by
  unfold searchBookmarks
  simp [h]

/-- Witness for C10 on a whitespace-only query. -/
theorem claim_C10_witness :
    searchBookmarks
      [⟨"1", "u", "t", "", none, none, [], "c", 0, 0⟩] "  " =
      [⟨"1", "u", "t", "", none, none, [], "c", 0, 0⟩] :=
  claim_C10 [⟨"1", "u", "t", "", none, none, [], "c", 0, 0⟩]
    "  " (by decide)

end Collection
